import Mathlib

/-!
Verification of the HTML whitespace-normalization and script-boundary
spacing engine of `internal/gen/gen.go`.

The Go tree (`golang.org/x/net/html.Node`, a doubly linked tree mutated in
place) is embedded as a rose tree `Node`; the in-place child-list loops of
the three passes become recursions over children lists that carry the same
information the live pointers carry (the already-processed prefix, the
current previous sibling, the unprocessed suffix).  Runes are embedded as
`Int` so that the sentinel `-1` of the Go code is representable;
`utf8.DecodeRuneInString` / `DecodeLastRuneInString` on an empty string
yield `utf8.RuneError` = `U+FFFD`, which is modelled explicitly.
-/

namespace HH

/-- The sentinel rune `-1` used throughout gen.go for "no rune". -/
def noRune : Int := -1

/-- `utf8.RuneError` (U+FFFD), returned by the Go UTF-8 decoders on an
empty string. -/
def runeError : Int := 0xFFFD

/-- Partial model of the `golang.org/x/text/width` lookup used by gen.go:
`true` iff the rune's East-Asian width is Wide or Fullwidth.  The Unicode
table is external library data; it is modelled here on the principal
Wide/Fullwidth ranges (Hangul Jamo, CJK radicals/symbols, kana, CJK
ideographs, Hangul syllables, compatibility ideographs, fullwidth forms),
which cover every code point appearing in this development.  U+FFFD is
East-Asian Ambiguous, hence not wide. -/
def isWideRune (r : Int) : Bool :=
  (0x1100 ≤ r && r ≤ 0x115F) ||
  (0x2E80 ≤ r && r ≤ 0x303E) ||
  (0x3041 ≤ r && r ≤ 0x33FF) ||
  (0x4E00 ≤ r && r ≤ 0x9FFF) ||
  (0xA000 ≤ r && r ≤ 0xA4CF) ||
  (0xAC00 ≤ r && r ≤ 0xD7A3) ||
  (0xF900 ≤ r && r ≤ 0xFAFF) ||
  (0xFE30 ≤ r && r ≤ 0xFE4F) ||
  (0xFF00 ≤ r && r ≤ 0xFF60) ||
  (0xFFE0 ≤ r && r ≤ 0xFFE6)

/-- Partial model of Go's `unicode.IsSpace` (White_Space property):
ASCII control whitespace and space, NEL, NBSP, and the Unicode space
separators. -/
def isSpaceRune (r : Int) : Bool :=
  (9 ≤ r && r ≤ 13) || r == 32 || r == 0x85 || r == 0xA0 ||
  r == 0x1680 || (0x2000 ≤ r && r ≤ 0x200A) ||
  r == 0x2028 || r == 0x2029 || r == 0x202F || r == 0x205F || r == 0x3000

/-- Partial model of Go's `unicode.IsPunct` (general category P),
restricted to the code points relevant here: the ASCII punctuation of
category P (`$ + < = > ^`, backquote, `| ~` are symbols, not punctuation)
and the common CJK/fullwidth punctuation. -/
def isPunctRune (r : Int) : Bool :=
  r == 0x21 || r == 0x22 || r == 0x23 || r == 0x25 || r == 0x26 ||
  r == 0x27 || r == 0x28 || r == 0x29 || r == 0x2A || r == 0x2C ||
  r == 0x2D || r == 0x2E || r == 0x2F || r == 0x3A || r == 0x3B ||
  r == 0x3F || r == 0x40 || r == 0x5B || r == 0x5C || r == 0x5D ||
  r == 0x5F || r == 0x7B || r == 0x7D ||
  r == 0x3001 || r == 0x3002 || r == 0x300C || r == 0x300D ||
  r == 0xFF01 || r == 0xFF08 || r == 0xFF09 || r == 0xFF0C ||
  r == 0xFF0E || r == 0xFF1F

/-- The rune (code point) of a `Char`, as an `Int`. -/
def charRune (c : Char) : Int := (c.toNat : Int)

/-- `utf8.DecodeRuneInString`: first rune of a string, `RuneError` if
empty (gen.go only decodes valid UTF-8). -/
def firstRuneS (s : String) : Int :=
  match s.data with
  | [] => runeError
  | c :: _ => charRune c

/-- `utf8.DecodeLastRuneInString`: last rune of a string, `RuneError` if
empty. -/
def lastRuneS (s : String) : Int :=
  match s.data.reverse with
  | [] => runeError
  | c :: _ => charRune c

/-- gen.go `isASCIIWhitespace`: the HTML-spec ASCII whitespace set
tab, LF, FF, CR, space. -/
def isASCIIWhitespace (c : Char) : Bool :=
  c == '\t' || c == '\n' || c == '\x0c' || c == '\r' || c == ' '

/-- `strings.TrimLeft(s, asciiWhitespace)`. -/
def trimLeftWS (s : String) : String :=
  (s.data.dropWhile isASCIIWhitespace).asString

/-- `strings.TrimRight(s, asciiWhitespace)`. -/
def trimRightWS (s : String) : String :=
  ((s.data.reverse.dropWhile isASCIIWhitespace).reverse).asString

/-- `strings.Trim(s, asciiWhitespace)`. -/
def trimWS (s : String) : String := trimRightWS (trimLeftWS s)

/-- gen.go `hasASCIIWhitespaceHead`. -/
def hasASCIIWhitespaceHead (s : String) : Bool := trimLeftWS s != s

/-- gen.go `hasASCIIWhitespaceTail`. -/
def hasASCIIWhitespaceTail (s : String) : Bool := trimRightWS s != s

/-- Scanning helper for the two `hasASCIIWhitespaceWithNewLine…`
functions: scanning inward, only ASCII whitespace occurs before a literal
newline is found.  (On the empty list Go's decoder yields `RuneError`,
which is not ASCII whitespace, so the Go loops return false.) -/
def hasNLRun : List Char → Bool
  | [] => false
  | c :: cs =>
    if c == '\n' then true
    else if isASCIIWhitespace c then hasNLRun cs
    else false

/-- gen.go `hasASCIIWhitespaceWithNewLineHead`. -/
def hasASCIIWhitespaceWithNewLineHead (s : String) : Bool := hasNLRun s.data

/-- gen.go `hasASCIIWhitespaceWithNewLineTail`. -/
def hasASCIIWhitespaceWithNewLineTail (s : String) : Bool :=
  hasNLRun s.data.reverse

/-- `regexp [\t\n\f\r ]*\n[\t\n\f\r ]*` `.Split(s, -1)`: the regex matches
exactly the maximal ASCII-whitespace runs that contain at least one
newline, so `Split` cuts the string at every such run.  `seg` is the
segment accumulated so far, `run`/`hasNL` the pending whitespace run and
whether it contains a newline. -/
def splitNLRun (seg run : List Char) (hasNL : Bool) : List Char → List String
  | [] =>
    if run.isEmpty then [seg.asString]
    else if hasNL then [seg.asString, ""]
    else [(seg ++ run).asString]
  | c :: cs =>
    if isASCIIWhitespace c then
      splitNLRun seg (run ++ [c]) (hasNL || c == '\n') cs
    else if run.isEmpty then
      splitNLRun (seg ++ [c]) [] false cs
    else if hasNL then
      seg.asString :: splitNLRun [c] [] false cs
    else
      splitNLRun (seg ++ run ++ [c]) [] false cs

/-- gen.go `reNewLineAndSpace.Split(s, -1)`. -/
def splitNewLineAndSpace (s : String) : List String :=
  splitNLRun [] [] false s.data

/-- `regexp [\t\n\f\r ]+` `.ReplaceAllString(s, " ")`: collapse every
maximal ASCII-whitespace run to one space.  The flag records whether the
previous character was inside a whitespace run. -/
def collapseWSRun (inWS : Bool) : List Char → List Char
  | [] => []
  | c :: cs =>
    if isASCIIWhitespace c then
      if inWS then collapseWSRun true cs else ' ' :: collapseWSRun true cs
    else c :: collapseWSRun false cs

/-- gen.go `reSpace.ReplaceAllString(data, " ")`. -/
def collapseWS (s : String) : String := (collapseWSRun false s.data).asString

/-- gen.go `shouldReserveSpaceBetweenRunes`. -/
def shouldReserveSpaceBetweenRunes (r0 r1 : Int) : Bool :=
  if r0 == noRune || r1 == noRune then false
  else !isWideRune r0 && !isWideRune r1

/-- gen.go `shouldReserveSpaceBetweenTexts`. -/
def shouldReserveSpaceBetweenTexts (d0 d1 : String) : Bool :=
  if d0 == "" && d1 == "" then false
  else
    let d0 := if hasASCIIWhitespaceWithNewLineTail d0 then trimRightWS d0 else d0
    let d1 := if hasASCIIWhitespaceWithNewLineHead d1 then trimLeftWS d1 else d1
    shouldReserveSpaceBetweenRunes (lastRuneS d0) (firstRuneS d1)

/-- gen.go `shouldHaveThinSpace` (current version, lines 904-922): after
the sentinel and space guards and the requirement that exactly one side is
wide, the result is `(w0 && !IsPunct(r0)) != (w1 && !IsPunct(r1))` — only
the punctuation status of the wide side matters. -/
def shouldHaveThinSpace (r0 r1 : Int) : Bool :=
  if r0 == noRune || r1 == noRune then false
  else if isSpaceRune r0 || isSpaceRune r1 then false
  else
    let w0 := isWideRune r0
    let w1 := isWideRune r1
    if w0 == w1 then false
    else (w0 && !isPunctRune r0) != (w1 && !isPunctRune r1)

/-- `html.NodeType`, restricted to the kinds gen.go distinguishes. -/
inductive NodeType where
  | document
  | element
  | text
  | comment
  | doctype
deriving DecidableEq, Repr

/-- `html.Attribute` (Namespace, Key, Val). -/
structure HAttr where
  ns : String
  key : String
  val : String
deriving DecidableEq, Repr

/-- `html.Node`: the parent/sibling pointers of the Go struct are
represented by the tree structure itself (the `children` list); `DataAtom`
is a cached interning of `data` and is omitted. -/
inductive Node where
  | mk (ntype : NodeType) (data : String) (ns : String)
       (attr : List HAttr) (children : List Node)
deriving Repr

/-- The node's type. -/
def Node.ntype : Node → NodeType
  | .mk t _ _ _ _ => t

/-- The node's `Data` (tag name for elements, payload for text and
comments). -/
def Node.data : Node → String
  | .mk _ d _ _ _ => d

/-- The node's namespace. -/
def Node.nspace : Node → String
  | .mk _ _ s _ _ => s

/-- The node's attributes. -/
def Node.attr : Node → List HAttr
  | .mk _ _ _ a _ => a

/-- The node's children. -/
def Node.children : Node → List Node
  | .mk _ _ _ _ ch => ch

/-- A fresh text node, as created by `&html.Node{Type: html.TextNode,
Data: s}`. -/
def textNode (s : String) : Node := .mk .text s "" [] []

/-- A fresh comment node. -/
def commentNode (s : String) : Node := .mk .comment s "" [] []

/-- An element node with the given tag and children. -/
def elem (tag : String) (ch : List Node) : Node := .mk .element tag "" [] ch

/-- `n.Data = s`: in-place payload update, everything else kept. -/
def Node.withData : Node → String → Node
  | .mk t _ ns a ch, s => .mk t s ns a ch

mutual

/-- Number of nodes in the tree (used as fuel for the searches below). -/
def nodeSize : Node → Nat
  | .mk _ _ _ _ ch => 1 + forestSize ch

/-- Number of nodes in a forest. -/
def forestSize : List Node → Nat
  | [] => 0
  | n :: l => nodeSize n + forestSize l

end

/-- gen.go `isMetadataElementName`. -/
def isMetadataElementName (name : String) : Bool :=
  ["base", "link", "meta", "noscript", "script", "style", "template",
   "title"].contains name

/-- gen.go `isPhrasingElementName`. -/
def isPhrasingElementName (name : String) : Bool :=
  ["a", "abbr", "area", "audio", "b", "bdi", "bdo", "br", "button",
   "canvas", "cite", "code", "data", "datalist", "del", "dfn", "em",
   "embed", "i", "iframe", "img", "input", "ins", "kbd", "label", "link",
   "map", "mark", "math", "meta", "meter", "noscript", "object", "output",
   "picture", "progress", "q", "ruby", "s", "samp", "script", "select",
   "slot", "small", "span", "strong", "sub", "sup", "svg", "template",
   "textarea", "time", "u", "var", "video", "wbr"].contains name

/-- The guard shared by the three passes: recursion stops at metadata
elements and at `pre`. -/
def isOpaqueNode (n : Node) : Bool :=
  n.ntype == .element && (isMetadataElementName n.data || n.data == "pre")

mutual

/-- No text node anywhere in the tree (the node itself included) has an
empty payload. -/
def noEmptyTextB : Node → Bool
  | .mk t d _ _ ch => !(t == .text && d == "") && noEmptyTextListB ch

/-- `noEmptyTextB` over a forest. -/
def noEmptyTextListB : List Node → Bool
  | [] => true
  | n :: l => noEmptyTextB n && noEmptyTextListB l

end

mutual

/-- No comment node anywhere in the tree. -/
def commentFreeB : Node → Bool
  | .mk t _ _ _ ch => !(t == .comment) && commentFreeListB ch

/-- `commentFreeB` over a forest. -/
def commentFreeListB : List Node → Bool
  | [] => true
  | n :: l => commentFreeB n && commentFreeListB l

end

/-- No two consecutive members of the list are both text nodes. -/
def noAdjTextPairB : List Node → Bool
  | a :: b :: l => !(a.ntype == .text && b.ntype == .text) && noAdjTextPairB (b :: l)
  | _ => true

mutual

/-- At every node of the tree, the children list has no two adjacent text
nodes. -/
def noAdjTextsB : Node → Bool
  | .mk _ _ _ _ ch => noAdjTextPairB ch && noAdjTextsListB ch

/-- `noAdjTextsB` over a forest. -/
def noAdjTextsListB : List Node → Bool
  | [] => true
  | n :: l => noAdjTextsB n && noAdjTextsListB l

end

mutual

/-- The character content of the tree: the concatenation of all text-node
payloads (as character lists) in document order. -/
def textContent : Node → List Char
  | .mk t d _ _ ch => (if t == .text then d.data else []) ++ textContentList ch

/-- `textContent` over a forest. -/
def textContentList : List Node → List Char
  | [] => []
  | n :: l => textContent n ++ textContentList l

end

mutual

/-- Every text node in the tree is childless (true of every tree the HTML
parser produces: a text node carries only its payload). -/
def textsChildlessB : Node → Bool
  | .mk t _ _ _ ch => (!(t == .text) || ch.isEmpty) && textsChildlessListB ch

/-- `textsChildlessB` over a forest. -/
def textsChildlessListB : List Node → Bool
  | [] => true
  | n :: l => textsChildlessB n && textsChildlessListB l

end

/-!
Tree navigation.  gen.go walks the live tree through
`NextSibling`/`PrevSibling`/`FirstChild`/`LastChild`/`Parent` pointers; a
position in the tree is embedded as a forest (the children of the node a
pass is working on) together with a path of child indices.  The current
`nextVisibleNode`/`prevVisibleNode` (gen.go lines 830-874) never ascend
above the node they start from, so every search started at a child of a
node stays inside that node's children forest.
-/

/-- The node at a path of child indices into a forest. -/
def forestGet? : List Node → List Nat → Option Node
  | _, [] => none
  | l, [i] => l[i]?
  | l, i :: p =>
    match l[i]? with
    | none => none
    | some n => forestGet? n.children p

/-- The descending loop of `nextVisibleNode`: starting at the sibling just
moved to, return `none` as soon as a non-phrasing element is met,
otherwise follow first children until a childless node is reached.  The
fuel only bounds the descent depth; callers pass `sizeOf` of the node,
which always suffices. -/
def descendFirstVis : Nat → Node → List Nat → Option (List Nat)
  | 0, _, _ => none
  | f + 1, .mk t d _ _ ch, q =>
    if t == .element && !isPhrasingElementName d then none
    else
      match ch with
      | [] => some q
      | c :: _ => descendFirstVis f c (q ++ [0])

/-- The mirror loop of `prevVisibleNode`, following last children. -/
def descendLastVis : Nat → Node → List Nat → Option (List Nat)
  | 0, _, _ => none
  | f + 1, .mk t d _ _ ch, q =>
    if t == .element && !isPhrasingElementName d then none
    else
      match ch.getLast? with
      | none => some q
      | some c => descendLastVis f c (q ++ [ch.length - 1])

/-- gen.go `nextVisibleNode` (lines 830-851): if the node has no next
sibling, return nil at once (no ascent); otherwise move to the next
sibling and search its first visible descendant. -/
def nextVisibleNode : List Node → List Nat → Option (List Nat)
  | _, [] => none
  | l, [i] =>
    match l[i + 1]? with
    | none => none
    | some sib => descendFirstVis (nodeSize sib) sib [i + 1]
  | l, i :: p =>
    match l[i]? with
    | none => none
    | some n => (nextVisibleNode n.children p).map (i :: ·)

/-- gen.go `prevVisibleNode` (lines 853-874), the mirror image. -/
def prevVisibleNode : List Node → List Nat → Option (List Nat)
  | _, [] => none
  | l, [i] =>
    if i == 0 then none
    else
      match l[i - 1]? with
      | none => none
      | some sib => descendLastVis (nodeSize sib) sib [i - 1]
  | l, i :: p =>
    match l[i]? with
    | none => none
    | some n => (prevVisibleNode n.children p).map (i :: ·)

/-- gen.go `nextVisibleTextNode`: iterate `nextVisibleNode` until a
non-empty text node is found.  Each step strictly advances the position,
so `sizeOf` of the forest bounds the number of steps. -/
def nextVisibleTextNode : Nat → List Node → List Nat → Option Node
  | 0, _, _ => none
  | f + 1, l, p =>
    match nextVisibleNode l p with
    | none => none
    | some q =>
      match forestGet? l q with
      | none => none
      | some n =>
        if n.ntype == .text && n.data != "" then some n
        else nextVisibleTextNode f l q

/-- gen.go `prevVisibleTextNode`. -/
def prevVisibleTextNode : Nat → List Node → List Nat → Option Node
  | 0, _, _ => none
  | f + 1, l, p =>
    match prevVisibleNode l p with
    | none => none
    | some q =>
      match forestGet? l q with
      | none => none
      | some n =>
        if n.ntype == .text && n.data != "" then some n
        else prevVisibleTextNode f l q

/-- gen.go `firstRuneAfter`, for the `i`-th entry of a children forest:
the first rune of the next visible text node, or the sentinel. -/
def firstRuneAfter (l : List Node) (i : Nat) : Int :=
  match nextVisibleTextNode (forestSize l) l [i] with
  | none => noRune
  | some n => firstRuneS n.data

/-- gen.go `lastRuneBefore`. -/
def lastRuneBefore (l : List Node) (i : Nat) : Int :=
  match prevVisibleTextNode (forestSize l) l [i] with
  | none => noRune
  | some n => lastRuneS n.data

/-- Is the optional node a phrasing element?  (The
`!= nil && .Type == ElementNode && isPhrasingElementName(.Data)` test of
gen.go.) -/
def isPhrasingElemOpt : Option Node → Bool
  | some q => q.ntype == .element && isPhrasingElementName q.data
  | none => false

mutual

/-- gen.go `removeComments` (lines 511-532): remove every comment child,
merging the two neighbouring text nodes when a removal makes them
adjacent, and recurse into every non-comment child. -/
def removeComments : Node → Node
  | .mk t d ns a ch => .mk t d ns a (removeCommentsChildren none ch)
termination_by n => sizeOf n

/-- The child loop of `removeComments`.  `p` is the already-processed
node sitting immediately before the cursor (the live `PrevSibling`); it is
flushed to the output when the loop moves past it. -/
def removeCommentsChildren : Option Node → List Node → List Node
  | p, [] => p.toList
  | p, n :: rest =>
    if n.ntype == .comment then
      match p, rest with
      | some prev, m :: rest2 =>
        if prev.ntype == .text && m.ntype == .text then
          removeCommentsChildren (some (prev.withData (prev.data ++ m.data))) rest2
        else
          removeCommentsChildren (some prev) (m :: rest2)
      | none, m :: rest2 => removeCommentsChildren none (m :: rest2)
      | pp, [] => pp.toList
    else
      p.toList ++ removeCommentsChildren (some (removeComments n)) rest
termination_by p l => sizeOf l

end

mutual

/-- gen.go `removeInterElementWhitespace` (lines 534-572). -/
def removeInterElementWhitespace : Node → Node
  | .mk t d ns a ch =>
    if isOpaqueNode (.mk t d ns a ch) then .mk t d ns a ch
    else .mk t d ns a (riewChildren none ch)
termination_by n => sizeOf n

/-- The child loop of `removeInterElementWhitespace`.  `p` is the live
previous sibling (already processed), `rest` the not-yet-visited suffix;
a whitespace-only text child is rewritten to a single space and then kept
only when it is sole (no live previous and no next sibling) or sits
between two phrasing elements. -/
def riewChildren : Option Node → List Node → List Node
  | _, [] => []
  | p, n :: rest =>
    if n.ntype == .text then
      if trimWS n.data != "" then n :: riewChildren (some n) rest
      else
        let n' := n.withData " "
        if p.isNone && rest.isEmpty then n' :: riewChildren (some n') rest
        else if isPhrasingElemOpt p && isPhrasingElemOpt rest.head? then
          n' :: riewChildren (some n') rest
        else riewChildren p rest
    else
      let n' := removeInterElementWhitespace n
      n' :: riewChildren (some n') rest
termination_by p l => sizeOf l

end

/-- The dummy-insertion loops of `processNewLines` and
`insertNodeBetweenWideAndNarrow`: put a fresh empty text node between any
two adjacent element children. -/
def insertDummies : List Node → List Node
  | [] => []
  | [a] => [a]
  | a :: b :: rest =>
    if a.ntype == .element && b.ntype == .element then
      a :: textNode "" :: insertDummies (b :: rest)
    else a :: insertDummies (b :: rest)

/-- The text-node cleanup loop shared by `processNewLines` and
`insertNodeBetweenWideAndNarrow`: drop every text child with empty
payload. -/
def removeEmptyTexts (l : List Node) : List Node :=
  l.filter (fun c => !(c.ntype == .text && c.data == ""))

/-- The split-joining loop of `processNewLines`: append the fragments of
`reNewLineAndSpace.Split`, putting one space between the current `data`
and a non-empty fragment when `shouldReserveSpaceBetweenRunes` holds of
the runes at the seam. -/
def pnlJoin (data : String) : List String → String
  | [] => data
  | t :: ts =>
    let data :=
      if data.length > 0 && t != "" &&
          shouldReserveSpaceBetweenRunes (lastRuneS data) (firstRuneS t) then
        data ++ " " ++ t
      else data ++ t
    pnlJoin data ts

/-- The per-text-node replacement payload of `processNewLines`
(lines 615-645 of gen.go): `prevD`/`nextD` are the payloads of the
previous/next visible text nodes, if any. -/
def pnlComputeData (d : String) (prevD nextD : Option String) : String :=
  let built :=
    if d.length > 0 && (trimWS d != "" || !(d.data.contains '\n')) then
      let hd :=
        match prevD with
        | some pd =>
          if (hasASCIIWhitespaceTail pd || hasASCIIWhitespaceHead d) &&
              shouldReserveSpaceBetweenTexts pd d then " " else ""
        | none => ""
      let mid := pnlJoin hd (splitNewLineAndSpace d)
      let tl :=
        match nextD with
        | some nd =>
          if (hasASCIIWhitespaceTail d || hasASCIIWhitespaceHead nd) &&
              shouldReserveSpaceBetweenTexts d nd then " " else ""
        | none => ""
      mid ++ tl
    else
      match prevD, nextD with
      | some pd, some nd =>
        if (hasASCIIWhitespaceTail pd || hasASCIIWhitespaceHead nd ||
            d.length > 0) && shouldReserveSpaceBetweenTexts pd nd then " "
        else ""
      | _, _ => ""
  collapseWS built

/-- The text-processing loop of `processNewLines`: children are visited
left to right; `done` is the already-rewritten prefix (the loop mutates
payloads in place, so the neighbour searches of later children see the
rewritten data of earlier ones), `rest` the unvisited suffix. -/
def pnlTexts : List Node → List Node → List Node
  | done, [] => done
  | done, n :: rest =>
    if n.ntype == .text then
      let cur := done ++ n :: rest
      let i := done.length
      let prevD := (prevVisibleTextNode (forestSize cur) cur [i]).map Node.data
      let nextD := (nextVisibleTextNode (forestSize cur) cur [i]).map Node.data
      pnlTexts (done ++ [n.withData (pnlComputeData n.data prevD nextD)]) rest
    else pnlTexts (done ++ [n]) rest

/-- gen.go `processNewLines` (lines 574-668), with explicit fuel bounding
the recursion depth (the wrapper `processNewLines` passes the node count,
which always suffices): guard; insert dummy empty text nodes between
adjacent element children; rewrite the payload of every text child; recurse
into the non-text children; remove the text children left with an empty
payload. -/
def processNewLinesF : Nat → Node → Node
  | 0, n => n
  | f + 1, n =>
    if isOpaqueNode n then n
    else
      match n with
      | .mk t d ns a ch =>
        let ch1 := insertDummies ch
        let ch2 := pnlTexts [] ch1
        let ch3 := ch2.map fun c =>
          if c.ntype == .text then c else processNewLinesF f c
        .mk t d ns a (removeEmptyTexts ch3)

/-- gen.go `processNewLines`. -/
def processNewLines (n : Node) : Node := processNewLinesF (nodeSize n) n

/-- The tokenizer of `insertNodeBetweenWideAndNarrow`: `cur` is the token
being accumulated, `prev` the previous character; a new token starts
before `c` whenever `shouldHaveThinSpace` holds of the adjacent runes. -/
def tokenizeFrom (cur : List Char) (prev : Char) : List Char → List String
  | [] => [cur.asString]
  | c :: cs =>
    if shouldHaveThinSpace (charRune prev) (charRune c) then
      cur.asString :: tokenizeFrom [c] c cs
    else tokenizeFrom (cur ++ [c]) c cs

/-- The token list built by the `for i, r := range n.Data` loop of
`insertNodeBetweenWideAndNarrow` (lines 707-718): the final
`append(tokens, n.Data[lastI:])` makes the list non-empty even for an
empty payload, where it is `[""]`. -/
def tokenize (s : String) : List String :=
  match s.data with
  | [] => [""]
  | c :: cs => tokenizeFrom [c] c cs

/-- The `insertSpan` closure: a clone of the caller-supplied marker node —
type, data, namespace copied, the attribute list copied into fresh
storage, no children. -/
def cloneNode (ins : Node) : Node := .mk ins.ntype ins.data ins.nspace ins.attr []

/-- Tokens re-inserted in order with a marker clone between consecutive
tokens. -/
def interleaveTokens (ins : Node) : List String → List Node
  | [] => []
  | [t] => [textNode t]
  | t :: t2 :: ts => textNode t :: cloneNode ins :: interleaveTokens ins (t2 :: ts)

/-- The node sequence that replaces one text node in
`insertNodeBetweenWideAndNarrow` (lines 738-759): a leading clone when the
rule fires against the rune before the node, the interleaved tokens, and a
trailing clone when it fires against the rune after.  The `[]` arm is the
(dead) `len(tokens) == 0` branch of the Go code. -/
def replaceTextNode (ins : Node) (prevR nextR : Int) (d : String) : List Node :=
  match tokenize d with
  | [] => if shouldHaveThinSpace prevR nextR then [cloneNode ins] else []
  | t0 :: ts =>
    (if shouldHaveThinSpace prevR (firstRuneS t0) then [cloneNode ins] else [])
      ++ interleaveTokens ins (t0 :: ts)
      ++ (if shouldHaveThinSpace (lastRuneS ((t0 :: ts).getLastD "")) nextR then
            [cloneNode ins]
          else [])

/-- The text-processing loop of `insertNodeBetweenWideAndNarrow`: each
text child is removed and its replacement sequence inserted at its
position; the boundary runes are found in the current (partially
rewritten) child list, exactly as the live-pointer searches do. -/
def inbwanTexts (ins : Node) : List Node → List Node → List Node
  | done, [] => done
  | done, n :: rest =>
    if n.ntype == .text then
      let cur := done ++ n :: rest
      let i := done.length
      let prevR := lastRuneBefore cur i
      let nextR := firstRuneAfter cur i
      inbwanTexts ins (done ++ replaceTextNode ins prevR nextR n.data) rest
    else inbwanTexts ins (done ++ [n]) rest

/-- gen.go `insertNodeBetweenWideAndNarrow` (lines 670-781), with explicit
fuel bounding the recursion depth: guard; insert dummy empty text nodes
between adjacent element children; replace every text child by its token
and marker sequence; recurse into non-text children; remove the empty text
children that are left. -/
def insertNodeBetweenWideAndNarrowF : Nat → Node → Node → Node
  | 0, _, n => n
  | f + 1, ins, n =>
    if isOpaqueNode n then n
    else
      match n with
      | .mk t d ns a ch =>
        let ch1 := insertDummies ch
        let ch2 := inbwanTexts ins [] ch1
        let ch3 := ch2.map fun c =>
          if c.ntype == .text then c
          else insertNodeBetweenWideAndNarrowF f ins c
        .mk t d ns a (removeEmptyTexts ch3)

/-- gen.go `insertNodeBetweenWideAndNarrow`. -/
def insertNodeBetweenWideAndNarrow (n ins : Node) : Node :=
  insertNodeBetweenWideAndNarrowF (nodeSize n) ins n

/-!  Helper lemmas. -/

theorem nodeSize_pos (n : Node) : 1 ≤ nodeSize n := by
  cases n with
  | mk t d ns a ch => simp [nodeSize]

theorem forestSize_cons (n : Node) (l : List Node) :
    forestSize (n :: l) = nodeSize n + forestSize l := by
  simp [forestSize]

theorem forestSize_eq_zero {l : List Node} (h : forestSize l = 0) : l = [] := by
  cases l with
  | nil => rfl
  | cons n t =>
    exfalso
    have := nodeSize_pos n
    rw [forestSize_cons] at h
    omega

theorem Node.withData_ntype (n : Node) (s : String) : (n.withData s).ntype = n.ntype := by
  cases n; rfl

theorem Node.withData_data (n : Node) (s : String) : (n.withData s).data = s := by
  cases n; rfl

theorem Node.withData_children (n : Node) (s : String) :
    (n.withData s).children = n.children := by
  cases n; rfl

/-- `removeInterElementWhitespace` preserves the node's type, data,
namespace and attributes. -/
theorem riew_shape (n : Node) :
    (removeInterElementWhitespace n).ntype = n.ntype ∧
    (removeInterElementWhitespace n).data = n.data := by
  cases n with
  | mk t d ns a ch =>
    rw [removeInterElementWhitespace]
    split <;> exact ⟨rfl, rfl⟩

/-!  C1: shouldHaveThinSpace. -/

/-- C1, counterexample: the claim says `shouldHaveThinSpace` returns false
whenever either argument is punctuation, but for the wide non-punctuation
rune あ (U+3042) against the narrow punctuation rune `.` (U+002E) the
function returns true: the current code only consults the punctuation
status of the wide side. -/
theorem C1_counterexample :
    shouldHaveThinSpace (charRune 'あ') (charRune '.') = true ∧
    isPunctRune (charRune '.') = true ∧
    isSpaceRune (charRune '.') = false ∧ isSpaceRune (charRune 'あ') = false ∧
    charRune 'あ' ≠ noRune ∧ charRune '.' ≠ noRune := by
  refine ⟨rfl, rfl, rfl, rfl, ?_, ?_⟩ <;> decide

/-- C1, amended: `shouldHaveThinSpace(r0, r1)` is false if either rune is
the sentinel `-1`, false if either is a space character, false if the two
runes' widths agree; otherwise — exactly one of the two is Wide/Fullwidth —
it is true iff the wide rune is not punctuation.  The punctuation status of
the narrow rune is ignored. -/
theorem C1_thin_space (r0 r1 : Int) :
    (r0 = noRune ∨ r1 = noRune → shouldHaveThinSpace r0 r1 = false) ∧
    (isSpaceRune r0 = true ∨ isSpaceRune r1 = true →
      shouldHaveThinSpace r0 r1 = false) ∧
    (isWideRune r0 = isWideRune r1 → shouldHaveThinSpace r0 r1 = false) ∧
    (r0 ≠ noRune → r1 ≠ noRune → isSpaceRune r0 = false → isSpaceRune r1 = false →
      isWideRune r0 = true → isWideRune r1 = false →
      shouldHaveThinSpace r0 r1 = !isPunctRune r0) ∧
    (r0 ≠ noRune → r1 ≠ noRune → isSpaceRune r0 = false → isSpaceRune r1 = false →
      isWideRune r0 = false → isWideRune r1 = true →
      shouldHaveThinSpace r0 r1 = !isPunctRune r1) := by
  unfold shouldHaveThinSpace
  refine ⟨?_, ?_, ?_, ?_, ?_⟩
  · rintro (h | h) <;> simp [h]
  · intro h
    rcases h with h | h <;>
      · split
        · rfl
        · simp [h]
  · intro h
    split
    · rfl
    split
    · rfl
    · simp [h]
  · intro h0 h1 hs0 hs1 hw0 hw1
    simp [h0, h1, hs0, hs1, hw0, hw1]
  · intro h0 h1 hs0 hs1 hw0 hw1
    simp [h0, h1, hs0, hs1, hw0, hw1]

/-- C1, witness for `C1_thin_space`: at the wide non-punctuation rune あ
against the narrow letter a, the result equals the negated punctuation
status of the wide side. -/
theorem C1_witness :
    shouldHaveThinSpace (charRune 'あ') (charRune 'a') = !isPunctRune (charRune 'あ') :=
  (C1_thin_space (charRune 'あ') (charRune 'a')).2.2.2.1
    (by decide) (by decide) (by decide) (by decide) (by decide) (by decide)

/-!  C2: nextVisibleNode / prevVisibleNode never ascend. -/

/-- The forest of the C2 counterexample: a `b` element containing the text
`x`, followed by the text `y` (all children of some parent).  The text `x`
has no next sibling, while its ancestor — the `b` element — has one. -/
def c2Forest : List Node := [elem "b" [textNode "x"], textNode "y"]

/-- The mirror forest for `prevVisibleNode`. -/
def c2ForestRev : List Node := [textNode "y", elem "b" [textNode "x"]]

/-- C2, counterexample: the claim says that when a node's next sibling is
absent the search ascends through ancestors (returning nil only when no
ancestor has a next sibling).  In `c2Forest`, the text node `x` at path
`[0, 0]` has no next sibling, its ancestor at path `[0]` has the next
sibling `y` at path `[1]`, yet `nextVisibleNode` returns `none`
immediately; `prevVisibleNode` behaves the same on the mirror tree. -/
theorem C2_counterexample :
    nextVisibleNode c2Forest [0, 0] = none ∧
    forestGet? c2Forest [1] = some (textNode "y") ∧
    prevVisibleNode c2ForestRev [1, 0] = none ∧
    forestGet? c2ForestRev [0] = some (textNode "y") := by
  exact ⟨rfl, rfl, rfl, rfl⟩

/-- C2, amended: the current `nextVisibleNode` returns `none` at once
whenever the node has no next sibling — it never ascends through
ancestors, so a missing sibling ends the search even when an ancestor has
one; `prevVisibleNode` is the mirror image, returning `none` for any
first child (index 0). -/
theorem C2_no_ascent :
    (∀ (l : List Node) (pre : List Nat) (i : Nat),
      forestGet? l (pre ++ [i + 1]) = none →
      nextVisibleNode l (pre ++ [i]) = none) ∧
    (∀ (l : List Node) (pre : List Nat),
      prevVisibleNode l (pre ++ [0]) = none) := by
  constructor
  · intro l pre
    induction pre generalizing l with
    | nil =>
      intro i h
      simp only [List.nil_append] at h ⊢
      simp only [forestGet?] at h
      simp only [nextVisibleNode, h]
    | cons k pre ih =>
      intro i h
      obtain ⟨q, qs, hq⟩ : ∃ q qs, pre ++ [i] = q :: qs := by
        cases pre with
        | nil => exact ⟨i, [], rfl⟩
        | cons a b => exact ⟨a, b ++ [i], by simp⟩
      obtain ⟨q1, qs1, hq1⟩ : ∃ q1 qs1, pre ++ [i + 1] = q1 :: qs1 := by
        cases pre with
        | nil => exact ⟨i + 1, [], rfl⟩
        | cons a b => exact ⟨a, b ++ [i + 1], by simp⟩
      simp only [List.cons_append] at h ⊢
      rw [hq]
      rw [hq1] at h
      simp only [forestGet?] at h
      simp only [nextVisibleNode]
      cases hk : l[k]? with
      | none => rfl
      | some n =>
        rw [hk] at h
        have := ih n.children i (by rw [hq1]; exact h)
        rw [hq] at this
        simp [this]
  · intro l pre
    induction pre generalizing l with
    | nil => simp [prevVisibleNode]
    | cons k pre ih =>
      obtain ⟨q, qs, hq⟩ : ∃ q qs, pre ++ [0] = q :: qs := by
        cases pre with
        | nil => exact ⟨0, [], rfl⟩
        | cons a b => exact ⟨a, b ++ [0], by simp⟩
      simp only [List.cons_append]
      rw [hq]
      simp only [prevVisibleNode]
      cases hk : l[k]? with
      | none => rfl
      | some n =>
        have := ih n.children
        rw [hq] at this
        simp [this]

/-- C2, witness for `C2_no_ascent`: in `c2Forest`, the text `x` at path
`[0] ++ [0]` has no sibling at path `[0] ++ [1]`, so the search stops. -/
theorem C2_witness : nextVisibleNode c2Forest ([0] ++ [0]) = none :=
  C2_no_ascent.1 c2Forest [0] 0 rfl

/-!  C7: the newline/space normalizer. -/

/-- The parse of `<p>foo <b> \n bar \n </b> baz</p>` (as
`html.ParseFragment` produces it in gen_test.go: wrapped in
`html`/`head`/`body`). -/
def c7In : Node :=
  elem "html" [elem "head" [],
    elem "body" [elem "p" [textNode "foo ",
      elem "b" [textNode " \n bar \n "], textNode " baz"]]]

/-- The parse of `<p>foo <b>bar</b> baz</p>`. -/
def c7Out : Node :=
  elem "html" [elem "head" [],
    elem "body" [elem "p" [textNode "foo ",
      elem "b" [textNode "bar"], textNode " baz"]]]

/-- C7: `processNewLines` collapses the newline-bearing whitespace at the
inline-element boundaries of `<p>foo <b> \n bar \n </b> baz</p>`, giving
`<p>foo <b>bar</b> baz</p>`; and at the rune level a single space is
reserved at a boundary iff neither side is the sentinel and neither
boundary rune is Wide/Fullwidth. -/
theorem C7_newline_collapse :
    processNewLines c7In = c7Out ∧
    ∀ r0 r1 : Int, shouldReserveSpaceBetweenRunes r0 r1 =
      (!(r0 == noRune) && !(r1 == noRune) && !isWideRune r0 && !isWideRune r1) := by
  constructor
  · rfl
  · intro r0 r1
    unfold shouldReserveSpaceBetweenRunes
    cases h0 : (r0 == noRune) <;> cases h1 : (r1 == noRune) <;> simp [h0, h1]

/-!  C8: metadata elements and pre are opaque to all three passes. -/

theorem processNewLinesF_guard (f : Nat) (n : Node) (h : isOpaqueNode n = true) :
    processNewLinesF f n = n := by
  cases f with
  | zero => rfl
  | succ f => simp [processNewLinesF, h]

theorem inbwanF_guard (f : Nat) (ins n : Node) (h : isOpaqueNode n = true) :
    insertNodeBetweenWideAndNarrowF f ins n = n := by
  cases f with
  | zero => rfl
  | succ f => simp [insertNodeBetweenWideAndNarrowF, h]

theorem riew_guard (n : Node) (h : isOpaqueNode n = true) :
    removeInterElementWhitespace n = n := by
  cases n with
  | mk t d ns a ch => simp [removeInterElementWhitespace, h]

/-- C8: an element whose tag is in the metadata set (base, link, meta,
noscript, script, style, template, title) or is `pre` is returned
unchanged by each of the three passes — the guard at the top of each pass
fires before any child is visited, so the whole subtree (attributes,
children, nested nodes) is untouched and the recursion never enters it. -/
theorem C8_opaque_untouched (d ns : String) (a : List HAttr) (ch : List Node)
    (ins : Node) (h : isMetadataElementName d = true ∨ d = "pre") :
    removeInterElementWhitespace (.mk .element d ns a ch) = .mk .element d ns a ch ∧
    processNewLines (.mk .element d ns a ch) = .mk .element d ns a ch ∧
    insertNodeBetweenWideAndNarrow (.mk .element d ns a ch) ins = .mk .element d ns a ch := by
  have hop : isOpaqueNode (.mk .element d ns a ch) = true := by
    rcases h with h | h <;> simp [isOpaqueNode, Node.ntype, Node.data, h]
  exact ⟨riew_guard _ hop, processNewLinesF_guard _ _ hop, inbwanF_guard _ _ _ hop⟩

/-- C8, witness: a `script` element with a child is untouched by all three
passes. -/
theorem C8_witness :
    removeInterElementWhitespace (.mk .element "script" "" [] [textNode " x "])
        = .mk .element "script" "" [] [textNode " x "] ∧
    processNewLines (.mk .element "script" "" [] [textNode " x "])
        = .mk .element "script" "" [] [textNode " x "] ∧
    insertNodeBetweenWideAndNarrow (.mk .element "script" "" [] [textNode " x "])
        (elem "span" []) = .mk .element "script" "" [] [textNode " x "] :=
  C8_opaque_untouched "script" "" [] [textNode " x "] (elem "span" []) (Or.inl rfl)

/-!  Tokenizer concatenation. -/

/-- Concatenation of a list of strings in order. -/
def concatStrings : List String → String
  | [] => ""
  | s :: l => s ++ concatStrings l

theorem asString_append (a b : List Char) :
    (a ++ b).asString = a.asString ++ b.asString := rfl

theorem asString_data (s : String) : s.data.asString = s := by
  cases s; rfl

theorem append_empty_str (s : String) : s ++ "" = s := by
  cases s with
  | mk l => show String.mk (l ++ []) = String.mk l; rw [List.append_nil]

theorem concatStrings_tokenizeFrom (rest : List Char) :
    ∀ (cur : List Char) (prev : Char),
      concatStrings (tokenizeFrom cur prev rest) = (cur ++ rest).asString := by
  induction rest with
  | nil =>
    intro cur prev
    simp [tokenizeFrom, concatStrings, append_empty_str]
  | cons c cs ih =>
    intro cur prev
    rw [tokenizeFrom]
    split
    · rw [concatStrings, ih [c] c, ← asString_append]
      rfl
    · rw [ih (cur ++ [c]) c, List.append_assoc]
      rfl

/-- The tokens of `insertNodeBetweenWideAndNarrow` concatenate back to the
original payload. -/
theorem concatStrings_tokenize (s : String) : concatStrings (tokenize s) = s := by
  rw [tokenize]
  cases hs : s.data with
  | nil =>
    have : s = "" := by
      cases s with | mk l => cases hs; rfl
    simp [this, concatStrings, append_empty_str]
  | cons c cs =>
    rw [concatStrings_tokenizeFrom]
    show (c :: cs).asString = s
    rw [← hs, asString_data]

/-- `tokenize` never returns the empty list: the Go loop always appends
the final `n.Data[lastI:]`, so the `len(tokens) == 0` branch of
`insertNodeBetweenWideAndNarrow` is dead code. -/
theorem tokenizeFrom_ne_nil (rest : List Char) :
    ∀ (cur : List Char) (prev : Char), tokenizeFrom cur prev rest ≠ [] := by
  induction rest with
  | nil => intro cur prev; simp [tokenizeFrom]
  | cons c cs ih =>
    intro cur prev
    rw [tokenizeFrom]
    split
    · simp
    · exact ih (cur ++ [c]) c

/-- `tokenize` never returns the empty list: the Go loop always appends
the final `n.Data[lastI:]`, so the `len(tokens) == 0` branch of
`insertNodeBetweenWideAndNarrow` is dead code. -/
theorem tokenize_ne_nil (s : String) : tokenize s ≠ [] := by
  rw [tokenize]
  cases s.data with
  | nil => simp
  | cons c cs => exact tokenizeFrom_ne_nil cs [c] c

/-!  C4: single-run text nodes in the wide/narrow spacer. -/

/-- The marker element the site generator passes to the spacer:
`<span class="thin-space">`. -/
def thinSpaceSpan : Node := .mk .element "span" "" [⟨"", "class", "thin-space"⟩] []

/-- The parse of `<p><span>あ</span><span>い</span></p>`. -/
def c4In : Node :=
  elem "html" [elem "head" [],
    elem "body" [elem "p" [elem "span" [textNode "あ"],
      elem "span" [textNode "い"]]]]

/-- What the spacer actually produces on `c4In`: TWO marker clones between
the two spans. -/
def c4Out : Node :=
  elem "html" [elem "head" [],
    elem "body" [elem "p" [elem "span" [textNode "あ"],
      thinSpaceSpan, thinSpaceSpan, elem "span" [textNode "い"]]]]

/-- C4, counterexample: the transient empty text node inserted between
`<span>あ</span>` and `<span>い</span>` has no internal token boundary and
`shouldHaveThinSpace` is false across the runes before and after it (both
are wide), so by the claim no marker should be inserted — but the pass
inserts two markers, because the empty payload tokenizes to `[""]` (not
`[]`), whose boundary runes decode to U+FFFD (narrow), and each of the two
boundary checks fires against a wide neighbour. -/
theorem C4_counterexample :
    insertNodeBetweenWideAndNarrow c4In thinSpaceSpan = c4Out ∧
    shouldHaveThinSpace (charRune 'あ') (charRune 'い') = false := ⟨rfl, rfl⟩

/-- C4, amended: a processed text node with a single token (no internal
boundary; the token list is never empty, so this includes the transient
empty nodes, whose single token is `""` with U+FFFD boundary runes) is
re-inserted with unchanged payload, with a marker clone before it iff
`shouldHaveThinSpace` holds of the rune before the node and the payload's
first rune, and a marker clone after it iff it holds of the payload's last
rune and the rune after the node — each boundary is governed by its own
pair, not by the pair (before, after). -/
theorem C4_single_run (ins : Node) (prevR nextR : Int) (d : String)
    (h : (tokenize d).length = 1) :
    replaceTextNode ins prevR nextR d =
      (if shouldHaveThinSpace prevR (firstRuneS d) then [cloneNode ins] else [])
        ++ [textNode d]
        ++ (if shouldHaveThinSpace (lastRuneS d) nextR then [cloneNode ins] else []) := by
  have htok : tokenize d = [d] := by
    cases ht : tokenize d with
    | nil => rw [ht] at h; simp at h
    | cons t ts =>
      cases ts with
      | nil =>
        have := concatStrings_tokenize d
        rw [ht] at this
        simp only [concatStrings] at this
        rw [append_empty_str] at this
        rw [this]
      | cons t2 ts2 => rw [ht] at h; simp at h
  rw [replaceTextNode, htok]
  simp [interleaveTokens, List.getLastD]

/-- C4, witness for `C4_single_run`: the single-token payload `"foo"`
between あ and the sentinel. -/
theorem C4_witness :
    replaceTextNode thinSpaceSpan (charRune 'あ') noRune "foo" =
      (if shouldHaveThinSpace (charRune 'あ') (firstRuneS "foo")
          then [cloneNode thinSpaceSpan] else [])
        ++ [textNode "foo"]
        ++ (if shouldHaveThinSpace (lastRuneS "foo") noRune
              then [cloneNode thinSpaceSpan] else []) :=
  C4_single_run thinSpaceSpan (charRune 'あ') noRune "foo" rfl

/-!  C3: the inter-element whitespace remover, per text child. -/

/-- C3: in the child loop of `removeInterElementWhitespace` (where `p` is
the live previous sibling at the time the node is processed and `rest` the
following siblings), a text child whose payload trims to empty under ASCII
whitespace has its payload replaced by exactly one space and is then kept
only when it is the sole child (no live previous, no next sibling) or sits
between two phrasing elements; otherwise it is deleted.  A text child
whose payload does not trim to empty passes through completely
unchanged. -/
theorem C3_whitespace_only (p : Option Node) (n : Node) (rest : List Node)
    (hn : n.ntype = .text) :
    (trimWS n.data ≠ "" →
      riewChildren p (n :: rest) = n :: riewChildren (some n) rest) ∧
    (trimWS n.data = "" →
      (p = none ∧ rest = []) ∨
        (isPhrasingElemOpt p = true ∧ isPhrasingElemOpt rest.head? = true) →
      riewChildren p (n :: rest) =
        n.withData " " :: riewChildren (some (n.withData " ")) rest) ∧
    (trimWS n.data = "" → ¬(p = none ∧ rest = []) →
      ¬(isPhrasingElemOpt p = true ∧ isPhrasingElemOpt rest.head? = true) →
      riewChildren p (n :: rest) = riewChildren p rest) := by
  refine ⟨?_, ?_, ?_⟩
  · intro ht
    rw [riewChildren]
    simp [hn, ht]
  · rintro ht (⟨hp, hr⟩ | ⟨hp, hr⟩)
    · subst hp; subst hr
      simp [riewChildren, hn, ht]
    · cases p with
      | none => simp [isPhrasingElemOpt] at hp
      | some q =>
        simp [riewChildren, hn, ht, hp, hr]
  · intro ht hsole hflank
    have hb : (p.isNone && rest.isEmpty) = false := by
      cases p with
      | none =>
        cases rest with
        | nil => exact absurd ⟨rfl, rfl⟩ hsole
        | cons a b => simp
      | some q => simp
    have hf : (isPhrasingElemOpt p && isPhrasingElemOpt rest.head?) = false := by
      cases h1 : isPhrasingElemOpt p <;> cases h2 : isPhrasingElemOpt rest.head? <;>
        simp_all
    simp [riewChildren, hn, ht, hb, hf]

/-- C3, witness for `C3_whitespace_only`: a sole whitespace-only text
child is rewritten to a single space and kept. -/
theorem C3_witness :
    riewChildren none [textNode "  "] =
      (textNode "  ").withData " " ::
        riewChildren (some ((textNode "  ").withData " ")) [] :=
  (C3_whitespace_only none (textNode "  ") [] rfl).2.1 rfl (Or.inl ⟨rfl, rfl⟩)

/-!  C5: idempotence of the whitespace remover. -/

theorem riewChildren_nil (p : Option Node) : riewChildren p [] = [] := by
  rw [riewChildren]

theorem riewChildren_nontext (p : Option Node) (n : Node) (rest : List Node)
    (h : (n.ntype == NodeType.text) = false) :
    riewChildren p (n :: rest) =
      removeInterElementWhitespace n ::
        riewChildren (some (removeInterElementWhitespace n)) rest := by
  simp [riewChildren, h]

theorem riewChildren_keep (p : Option Node) (n : Node) (rest : List Node)
    (hn : n.ntype = .text) (ht : trimWS n.data ≠ "") :
    riewChildren p (n :: rest) = n :: riewChildren (some n) rest := by
  simp [riewChildren, hn, ht]

theorem riewChildren_ws_sole (n : Node) (hn : n.ntype = .text)
    (ht : trimWS n.data = "") :
    riewChildren none [n] = [n.withData " "] := by
  simp [riewChildren, hn, ht]

theorem riewChildren_ws_flank (p : Option Node) (n m : Node) (rest2 : List Node)
    (hn : n.ntype = .text) (ht : trimWS n.data = "")
    (hp : isPhrasingElemOpt p = true) (hm : isPhrasingElemOpt (some m) = true) :
    riewChildren p (n :: m :: rest2) =
      n.withData " " :: riewChildren (some (n.withData " ")) (m :: rest2) := by
  cases p with
  | none => simp [isPhrasingElemOpt] at hp
  | some q => simp [riewChildren, hn, ht, hp, hm]

theorem riewChildren_ws_remove (p : Option Node) (n : Node) (rest : List Node)
    (hn : n.ntype = .text) (ht : trimWS n.data = "")
    (hb : (p.isNone && rest.isEmpty) = false)
    (hf : (isPhrasingElemOpt p && isPhrasingElemOpt rest.head?) = false) :
    riewChildren p (n :: rest) = riewChildren p rest := by
  simp [riewChildren, hn, ht, hb, hf]

theorem withData_withData (n : Node) (a b : String) :
    (n.withData a).withData b = n.withData b := by
  cases n; rfl

theorem trimWS_space : trimWS " " = "" := rfl

/-- The main induction for C5, on the total node count. -/
theorem riew_idem_main : ∀ N : Nat,
    (∀ n, nodeSize n ≤ N →
      removeInterElementWhitespace (removeInterElementWhitespace n) =
        removeInterElementWhitespace n) ∧
    (∀ (l : List Node) (p : Option Node), forestSize l ≤ N →
      riewChildren p (riewChildren p l) = riewChildren p l) := by
  intro N
  induction N using Nat.strong_induction_on with
  | _ N ih =>
  have hnode : ∀ n, nodeSize n ≤ N →
      removeInterElementWhitespace (removeInterElementWhitespace n) =
        removeInterElementWhitespace n := by
    intro n hn
    cases n with
    | mk t d ns a ch =>
      by_cases hop : isOpaqueNode (.mk t d ns a ch) = true
      · rw [riew_guard _ hop, riew_guard _ hop]
      · have hop' : isOpaqueNode (.mk t d ns a ch) = false :=
          Bool.not_eq_true _ ▸ (by simpa using hop)
        have hstep : removeInterElementWhitespace (.mk t d ns a ch) =
            .mk t d ns a (riewChildren none ch) := by
          rw [removeInterElementWhitespace]
          simp [hop']
        have hop2 : isOpaqueNode
            (.mk t d ns a (riewChildren none ch)) = false := by
          simpa [isOpaqueNode, Node.ntype, Node.data] using hop'
        have hstep2 : removeInterElementWhitespace
            (.mk t d ns a (riewChildren none ch)) =
            .mk t d ns a (riewChildren none (riewChildren none ch)) := by
          rw [removeInterElementWhitespace]
          simp [hop2]
        rw [hstep, hstep2]
        have hch : forestSize ch < N := by
          simp [nodeSize] at hn
          omega
        rw [(ih (forestSize ch) hch).2 ch none le_rfl]
  refine ⟨hnode, ?_⟩
  intro l p hl
  cases l with
  | nil => simp [riewChildren_nil]
  | cons n rest =>
    have hrest : forestSize rest < N := by
      rw [forestSize_cons] at hl
      have := nodeSize_pos n
      omega
    have hrestIH : ∀ q, riewChildren q (riewChildren q rest) = riewChildren q rest :=
      fun q => (ih (forestSize rest) hrest).2 rest q le_rfl
    have hnN : nodeSize n ≤ N := by
      rw [forestSize_cons] at hl
      omega
    by_cases htext : n.ntype = .text
    · by_cases htrim : trimWS n.data = ""
      · -- whitespace-only text child
        by_cases hsole : (p.isNone && rest.isEmpty) = true
        · -- sole child: p = none, rest = []
          have hp : p = none := by
            cases p with
            | none => rfl
            | some q => simp at hsole
          have hr : rest = [] := by
            cases rest with
            | nil => rfl
            | cons a b => simp at hsole
          subst hp; subst hr
          rw [riewChildren_ws_sole n htext htrim]
          rw [riewChildren_ws_sole (n.withData " ")
              (by rw [Node.withData_ntype]; exact htext)
              (by rw [Node.withData_data]; exact trimWS_space)]
          rw [withData_withData]
        · by_cases hflank : (isPhrasingElemOpt p && isPhrasingElemOpt rest.head?) = true
          · -- kept between two phrasing elements
            have hp : isPhrasingElemOpt p = true := by
              cases hq : isPhrasingElemOpt p
              · rw [hq] at hflank; simp at hflank
              · rfl
            have hm' : isPhrasingElemOpt rest.head? = true := by
              cases hq : isPhrasingElemOpt rest.head?
              · rw [hq] at hflank; simp at hflank
              · rfl
            cases rest with
            | nil => simp [isPhrasingElemOpt] at hm'
            | cons m rest2 =>
              have hm : isPhrasingElemOpt (some m) = true := hm'
              have hmn : (m.ntype == NodeType.text) = false := by
                have : m.ntype = .element := by
                  simp [isPhrasingElemOpt] at hm
                  exact hm.1
                rw [this]; rfl
              rw [riewChildren_ws_flank p n m rest2 htext htrim hp hm]
              rw [riewChildren_nontext (some (n.withData " ")) m rest2 hmn]
              have hmrw : isPhrasingElemOpt (some (removeInterElementWhitespace m)) = true := by
                have h1 := (riew_shape m).1
                have h2 := (riew_shape m).2
                simp only [isPhrasingElemOpt] at hm ⊢
                rw [h1, h2]
                exact hm
              rw [riewChildren_ws_flank p (n.withData " ")
                  (removeInterElementWhitespace m)
                  (riewChildren (some (removeInterElementWhitespace m)) rest2)
                  (by rw [Node.withData_ntype]; exact htext)
                  (by rw [Node.withData_data]; exact trimWS_space)
                  hp hmrw]
              rw [withData_withData]
              have hmrn : ((removeInterElementWhitespace m).ntype == NodeType.text) = false := by
                rw [(riew_shape m).1]; exact hmn
              rw [riewChildren_nontext (some (n.withData " "))
                  (removeInterElementWhitespace m)
                  (riewChildren (some (removeInterElementWhitespace m)) rest2) hmrn]
              have hmN : nodeSize m ≤ N := by
                rw [forestSize_cons, forestSize_cons] at hl
                omega
              rw [hnode m hmN]
              have hrest2 : forestSize rest2 < N := by
                rw [forestSize_cons, forestSize_cons] at hl
                have := nodeSize_pos n
                have := nodeSize_pos m
                omega
              rw [(ih (forestSize rest2) hrest2).2 rest2
                  (some (removeInterElementWhitespace m)) le_rfl]
          · -- removed
            have hb : (p.isNone && rest.isEmpty) = false := by
              cases h : (p.isNone && rest.isEmpty)
              · rfl
              · exact absurd h hsole
            have hf : (isPhrasingElemOpt p && isPhrasingElemOpt rest.head?) = false := by
              cases h : (isPhrasingElemOpt p && isPhrasingElemOpt rest.head?)
              · rfl
              · exact absurd h hflank
            rw [riewChildren_ws_remove p n rest htext htrim hb hf]
            exact hrestIH p
      · -- non-whitespace text child: unchanged
        rw [riewChildren_keep p n rest htext htrim]
        rw [riewChildren_keep p n (riewChildren (some n) rest) htext htrim]
        rw [hrestIH (some n)]
    · -- non-text child
      have hnt : (n.ntype == NodeType.text) = false := by
        cases h : (n.ntype == NodeType.text)
        · rfl
        · exact absurd (by simpa using h) htext
      rw [riewChildren_nontext p n rest hnt]
      have hnt2 : ((removeInterElementWhitespace n).ntype == NodeType.text) = false := by
        rw [(riew_shape n).1]; exact hnt
      rw [riewChildren_nontext p (removeInterElementWhitespace n)
          (riewChildren (some (removeInterElementWhitespace n)) rest) hnt2]
      rw [hnode n hnN]
      rw [hrestIH (some (removeInterElementWhitespace n))]

/-- C5: the inter-element whitespace remover is idempotent — running it
twice on any tree yields exactly the tree obtained by running it once. -/
theorem C5_riew_idempotent (t : Node) :
    removeInterElementWhitespace (removeInterElementWhitespace t) =
      removeInterElementWhitespace t :=
  (riew_idem_main (nodeSize t)).1 t le_rfl

/-!  C6: no empty text node survives a pass. -/

theorem noEmptyTextB_mk (t : NodeType) (d ns : String) (a : List HAttr)
    (ch : List Node) :
    noEmptyTextB (.mk t d ns a ch) =
      (!(t == .text && d == "") && noEmptyTextListB ch) := by
  rw [noEmptyTextB]

theorem noEmptyTextListB_iff (l : List Node) :
    noEmptyTextListB l = true ↔ ∀ c ∈ l, noEmptyTextB c = true := by
  induction l with
  | nil => simp [noEmptyTextListB]
  | cons n l ih =>
    rw [noEmptyTextListB]
    simp [ih]

theorem noEmptyTextB_children {t : NodeType} {d ns : String} {a : List HAttr}
    {ch : List Node} (h : noEmptyTextB (.mk t d ns a ch) = true) :
    noEmptyTextListB ch = true := by
  rw [noEmptyTextB_mk, Bool.and_eq_true] at h
  exact h.2

theorem noEmptyTextB_withData_space (n : Node) (h : noEmptyTextB n = true) :
    noEmptyTextB (n.withData " ") = true := by
  cases n with
  | mk t d ns a ch =>
    rw [Node.withData, noEmptyTextB_mk]
    rw [noEmptyTextB_mk, Bool.and_eq_true] at h
    simp [h.2]

theorem noEmptyTextB_textNode (s : String) :
    noEmptyTextB (textNode s) = !(s == "") := by
  rw [textNode, noEmptyTextB_mk]
  simp [noEmptyTextListB]

/-- Every member of `insertDummies l` is a member of `l` or a fresh empty
text node. -/
theorem mem_insertDummies :
    ∀ (l : List Node) (c : Node), c ∈ insertDummies l → c ∈ l ∨ c = textNode "" := by
  intro l
  induction l with
  | nil => intro c h; rw [insertDummies] at h; exact Or.inl h
  | cons a tail ih =>
    intro c h
    cases tail with
    | nil => rw [insertDummies] at h; exact Or.inl h
    | cons b rest =>
      rw [insertDummies] at h
      split at h
      · rcases List.mem_cons.1 h with h1 | h2
        · exact Or.inl (by simp [h1])
        rcases List.mem_cons.1 h2 with h3 | h4
        · exact Or.inr h3
        · rcases ih c h4 with h5 | h6
          · exact Or.inl (List.mem_cons_of_mem a h5)
          · exact Or.inr h6
      · rcases List.mem_cons.1 h with h1 | h2
        · exact Or.inl (by simp [h1])
        · rcases ih c h2 with h5 | h6
          · exact Or.inl (List.mem_cons_of_mem a h5)
          · exact Or.inr h6

/-- Every member of `pnlTexts done rest` is a member of `done`, a
non-text member of `rest`, or a payload rewrite of a text member of
`rest`. -/
theorem mem_pnlTexts :
    ∀ (rest done : List Node) (c : Node), c ∈ pnlTexts done rest →
      c ∈ done ∨ c ∈ rest ∨
        ∃ n, n ∈ rest ∧ n.ntype = .text ∧ ∃ s, c = n.withData s := by
  intro rest
  induction rest with
  | nil =>
    intro done c h
    rw [pnlTexts] at h
    exact Or.inl h
  | cons n rest ih =>
    intro done c h
    rw [pnlTexts] at h
    split at h
    · rcases ih _ c h with hd | hr | ⟨m, hm, hmt, s, hs⟩
      · rcases List.mem_append.1 hd with h1 | h2
        · exact Or.inl h1
        · refine Or.inr (Or.inr ⟨n, List.mem_cons_self n rest, by simpa using ‹(n.ntype == NodeType.text) = true›, ?_, ?_⟩)
          · exact pnlComputeData n.data
              ((prevVisibleTextNode (forestSize (done ++ n :: rest)) (done ++ n :: rest) [done.length]).map Node.data)
              ((nextVisibleTextNode (forestSize (done ++ n :: rest)) (done ++ n :: rest) [done.length]).map Node.data)
          · simpa using h2
      · exact Or.inr (Or.inl (List.mem_cons_of_mem n hr))
      · exact Or.inr (Or.inr ⟨m, List.mem_cons_of_mem n hm, hmt, s, hs⟩)
    · rcases ih _ c h with hd | hr | ⟨m, hm, hmt, s, hs⟩
      · rcases List.mem_append.1 hd with h1 | h2
        · exact Or.inl h1
        · exact Or.inr (Or.inl (by simpa using List.mem_cons.2 (Or.inl (List.mem_singleton.1 h2))))
      · exact Or.inr (Or.inl (List.mem_cons_of_mem n hr))
      · exact Or.inr (Or.inr ⟨m, List.mem_cons_of_mem n hm, hmt, s, hs⟩)

/-- Every member of `interleaveTokens` is a token text node or a marker
clone. -/
theorem mem_interleaveTokens (ins : Node) :
    ∀ (ts : List String) (c : Node), c ∈ interleaveTokens ins ts →
      c = cloneNode ins ∨ ∃ s, c = textNode s := by
  intro ts
  induction ts with
  | nil => intro c h; rw [interleaveTokens] at h; simp at h
  | cons t ts ih =>
    intro c h
    cases ts with
    | nil =>
      rw [interleaveTokens] at h
      simp at h
      exact Or.inr ⟨t, h⟩
    | cons t2 ts2 =>
      rw [interleaveTokens] at h
      rcases List.mem_cons.1 h with h1 | h2
      · exact Or.inr ⟨t, h1⟩
      rcases List.mem_cons.1 h2 with h3 | h4
      · exact Or.inl h3
      · exact ih c h4

/-- Every member of `replaceTextNode` is a marker clone or a token text
node. -/
theorem mem_replaceTextNode (ins : Node) (prevR nextR : Int) (d : String)
    (c : Node) (h : c ∈ replaceTextNode ins prevR nextR d) :
    c = cloneNode ins ∨ ∃ s, c = textNode s := by
  rw [replaceTextNode] at h
  split at h
  · split at h
    · exact Or.inl (List.mem_singleton.1 h)
    · simp at h
  · rcases List.mem_append.1 h with h1 | h2
    · rcases List.mem_append.1 h1 with h3 | h4
      · split at h3
        · exact Or.inl (List.mem_singleton.1 h3)
        · simp at h3
      · exact mem_interleaveTokens ins _ c h4
    · split at h2
      · exact Or.inl (List.mem_singleton.1 h2)
      · simp at h2

/-- Every member of `inbwanTexts ins done rest` is a member of `done`, a
non-text member of `rest`, a marker clone, or a fresh token text node. -/
theorem mem_inbwanTexts (ins : Node) :
    ∀ (rest done : List Node) (c : Node), c ∈ inbwanTexts ins done rest →
      c ∈ done ∨ c ∈ rest ∨ c = cloneNode ins ∨ ∃ s, c = textNode s := by
  intro rest
  induction rest with
  | nil =>
    intro done c h
    rw [inbwanTexts] at h
    exact Or.inl h
  | cons n rest ih =>
    intro done c h
    rw [inbwanTexts] at h
    split at h
    · rcases ih _ c h with hd | hr | hcl | hs
      · rcases List.mem_append.1 hd with h1 | h2
        · exact Or.inl h1
        · rcases mem_replaceTextNode ins _ _ _ c h2 with h3 | h4
          · exact Or.inr (Or.inr (Or.inl h3))
          · exact Or.inr (Or.inr (Or.inr h4))
      · exact Or.inr (Or.inl (List.mem_cons_of_mem n hr))
      · exact Or.inr (Or.inr (Or.inl hcl))
      · exact Or.inr (Or.inr (Or.inr hs))
    · rcases ih _ c h with hd | hr | hcl | hs
      · rcases List.mem_append.1 hd with h1 | h2
        · exact Or.inl h1
        · exact Or.inr (Or.inl (by simpa using List.mem_cons.2 (Or.inl (List.mem_singleton.1 h2))))
      · exact Or.inr (Or.inl (List.mem_cons_of_mem n hr))
      · exact Or.inr (Or.inr (Or.inl hcl))
      · exact Or.inr (Or.inr (Or.inr hs))

/-- The whitespace remover leaves no empty text node (main induction). -/
theorem riew_noempty_main : ∀ N : Nat,
    (∀ n, nodeSize n ≤ N → noEmptyTextB n = true →
      noEmptyTextB (removeInterElementWhitespace n) = true) ∧
    (∀ (l : List Node) (p : Option Node), forestSize l ≤ N →
      noEmptyTextListB l = true →
      noEmptyTextListB (riewChildren p l) = true) := by
  intro N
  induction N using Nat.strong_induction_on with
  | _ N ih =>
  have hnode : ∀ n, nodeSize n ≤ N → noEmptyTextB n = true →
      noEmptyTextB (removeInterElementWhitespace n) = true := by
    intro n hn h
    cases n with
    | mk t d ns a ch =>
      by_cases hop : isOpaqueNode (.mk t d ns a ch) = true
      · rw [riew_guard _ hop]; exact h
      · have hop' : isOpaqueNode (.mk t d ns a ch) = false := by simpa using hop
        have hstep : removeInterElementWhitespace (.mk t d ns a ch) =
            .mk t d ns a (riewChildren none ch) := by
          rw [removeInterElementWhitespace]; simp [hop']
        rw [hstep, noEmptyTextB_mk, Bool.and_eq_true]
        rw [noEmptyTextB_mk, Bool.and_eq_true] at h
        refine ⟨h.1, ?_⟩
        have hch : forestSize ch < N := by simp [nodeSize] at hn; omega
        exact (ih (forestSize ch) hch).2 ch none le_rfl h.2
  refine ⟨hnode, ?_⟩
  intro l p hl h
  cases l with
  | nil => simpa [riewChildren_nil] using h
  | cons n rest =>
    rw [noEmptyTextListB, Bool.and_eq_true] at h
    have hrest : forestSize rest < N := by
      rw [forestSize_cons] at hl
      have := nodeSize_pos n
      omega
    have hrestIH : ∀ q, noEmptyTextListB (riewChildren q rest) = true :=
      fun q => (ih (forestSize rest) hrest).2 rest q le_rfl h.2
    have hnN : nodeSize n ≤ N := by rw [forestSize_cons] at hl; omega
    by_cases htext : n.ntype = .text
    · by_cases htrim : trimWS n.data = ""
      · by_cases hsole : (p.isNone && rest.isEmpty) = true
        · have hp : p = none := by
            cases p with
            | none => rfl
            | some q => simp at hsole
          have hr : rest = [] := by
            cases rest with
            | nil => rfl
            | cons a b => simp at hsole
          subst hp; subst hr
          rw [riewChildren_ws_sole n htext htrim]
          rw [noEmptyTextListB, noEmptyTextListB, Bool.and_eq_true]
          exact ⟨noEmptyTextB_withData_space n h.1, rfl⟩
        · by_cases hflank :
              (isPhrasingElemOpt p && isPhrasingElemOpt rest.head?) = true
          · have hp : isPhrasingElemOpt p = true := by
              cases hq : isPhrasingElemOpt p
              · rw [hq] at hflank; simp at hflank
              · rfl
            have hm' : isPhrasingElemOpt rest.head? = true := by
              cases hq : isPhrasingElemOpt rest.head?
              · rw [hq] at hflank; simp at hflank
              · rfl
            cases rest with
            | nil => simp [isPhrasingElemOpt] at hm'
            | cons m rest2 =>
              rw [riewChildren_ws_flank p n m rest2 htext htrim hp hm']
              rw [noEmptyTextListB, Bool.and_eq_true]
              exact ⟨noEmptyTextB_withData_space n h.1,
                hrestIH (some (n.withData " "))⟩
          · have hb : (p.isNone && rest.isEmpty) = false := by
              cases hq : (p.isNone && rest.isEmpty)
              · rfl
              · exact absurd hq hsole
            have hf : (isPhrasingElemOpt p && isPhrasingElemOpt rest.head?) = false := by
              cases hq : (isPhrasingElemOpt p && isPhrasingElemOpt rest.head?)
              · rfl
              · exact absurd hq hflank
            rw [riewChildren_ws_remove p n rest htext htrim hb hf]
            exact hrestIH p
      · rw [riewChildren_keep p n rest htext htrim]
        rw [noEmptyTextListB, Bool.and_eq_true]
        exact ⟨h.1, hrestIH (some n)⟩
    · have hnt : (n.ntype == NodeType.text) = false := by
        cases hq : (n.ntype == NodeType.text)
        · rfl
        · exact absurd (by simpa using hq) htext
      rw [riewChildren_nontext p n rest hnt]
      rw [noEmptyTextListB, Bool.and_eq_true]
      exact ⟨hnode n hnN h.1, hrestIH (some (removeInterElementWhitespace n))⟩

/-- The newline normalizer leaves no empty text node, for every fuel. -/
theorem pnlF_noempty : ∀ (f : Nat) (t : Node),
    noEmptyTextB t = true → noEmptyTextB (processNewLinesF f t) = true := by
  intro f
  induction f with
  | zero => intro t h; exact h
  | succ f ih =>
    intro t h
    cases t with
    | mk ty d ns a ch =>
      by_cases hop : isOpaqueNode (.mk ty d ns a ch) = true
      · rw [processNewLinesF_guard _ _ hop]; exact h
      · have hop' : isOpaqueNode (.mk ty d ns a ch) = false := by simpa using hop
        rw [processNewLinesF]
        simp only [hop', Bool.false_eq_true, if_false]
        rw [noEmptyTextB_mk, Bool.and_eq_true]
        rw [noEmptyTextB_mk, Bool.and_eq_true] at h
        refine ⟨h.1, ?_⟩
        rw [noEmptyTextListB_iff]
        intro c hc
        rw [removeEmptyTexts] at hc
        obtain ⟨hc2, hcond⟩ := List.mem_filter.1 hc
        obtain ⟨c', hc', hmap⟩ := List.mem_map.1 hc2
        rcases mem_pnlTexts _ _ c' hc' with hd | hr | ⟨m, hm, hmt, s, hs⟩
        · simp at hd
        · -- c' is an unchanged member of the dummy-extended child list
          rcases mem_insertDummies ch c' hr with hch | hdum
          · have hc'ok : noEmptyTextB c' = true :=
              (noEmptyTextListB_iff ch).1 h.2 c' hch
            by_cases hct : (c'.ntype == NodeType.text) = true
            · rw [← hmap]
              simp only [hct, if_true]
              exact hc'ok
            · rw [← hmap]
              simp only [hct, Bool.false_eq_true, if_false]
              exact ih c' hc'ok
          · -- a dummy empty text node: contradicts the filter condition
            subst hdum
            rw [← hmap] at hcond
            simp [textNode, Node.ntype, Node.data] at hcond
        · -- c' is a text member of the list with rewritten payload
          have hct : (c'.ntype == NodeType.text) = true := by
            rw [hs, Node.withData_ntype, hmt]; rfl
          have hceq : c = c' := by rw [← hmap]; simp [hct]
          subst hceq
          rcases mem_insertDummies ch m hm with hch | hdum
          · have hmok : noEmptyTextB m = true :=
              (noEmptyTextListB_iff ch).1 h.2 m hch
            cases m with
            | mk mt md mns ma mch =>
              rw [hs]
              rw [hs] at hcond
              rw [Node.withData, noEmptyTextB_mk, Bool.and_eq_true]
              constructor
              · simp only [Node.withData, Node.ntype, Node.data] at hcond
                simpa using hcond
              · exact noEmptyTextB_children hmok
          · subst hdum
            rw [hs]
            rw [hs] at hcond
            rw [textNode, Node.withData, noEmptyTextB_mk, Bool.and_eq_true]
            constructor
            · simp only [Node.withData, Node.ntype, Node.data, textNode] at hcond
              simpa using hcond
            · rfl

/-- The wide/narrow spacer leaves no empty text node, for every fuel and
every marker node. -/
theorem inbwanF_noempty : ∀ (f : Nat) (ins t : Node),
    noEmptyTextB t = true →
    noEmptyTextB (insertNodeBetweenWideAndNarrowF f ins t) = true := by
  intro f
  induction f with
  | zero => intro ins t h; exact h
  | succ f ih =>
    intro ins t h
    cases t with
    | mk ty d ns a ch =>
      by_cases hop : isOpaqueNode (.mk ty d ns a ch) = true
      · rw [inbwanF_guard _ _ _ hop]; exact h
      · have hop' : isOpaqueNode (.mk ty d ns a ch) = false := by simpa using hop
        rw [insertNodeBetweenWideAndNarrowF]
        simp only [hop', Bool.false_eq_true, if_false]
        rw [noEmptyTextB_mk, Bool.and_eq_true]
        rw [noEmptyTextB_mk, Bool.and_eq_true] at h
        refine ⟨h.1, ?_⟩
        rw [noEmptyTextListB_iff]
        intro c hc
        rw [removeEmptyTexts] at hc
        obtain ⟨hc2, hcond⟩ := List.mem_filter.1 hc
        obtain ⟨c', hc', hmap⟩ := List.mem_map.1 hc2
        have hchildless : ∀ x : Node, x.children = [] →
            (!(x.ntype == NodeType.text && x.data == "")) = true →
            noEmptyTextB x = true := by
          intro x hx hcx
          cases x with
          | mk xt xd xns xa xch =>
            simp only [Node.children] at hx
            subst hx
            rw [noEmptyTextB_mk, Bool.and_eq_true]
            exact ⟨by simpa using hcx, rfl⟩
        rcases mem_inbwanTexts ins _ _ c' hc' with hd | hr | hcl | ⟨s, hs⟩
        · simp at hd
        · rcases mem_insertDummies ch c' hr with hch | hdum
          · have hc'ok : noEmptyTextB c' = true :=
              (noEmptyTextListB_iff ch).1 h.2 c' hch
            by_cases hct : (c'.ntype == NodeType.text) = true
            · rw [← hmap]
              simp only [hct, if_true]
              exact hc'ok
            · rw [← hmap]
              simp only [hct, Bool.false_eq_true, if_false]
              exact ih ins c' hc'ok
          · subst hdum
            rw [← hmap] at hcond
            simp [textNode, Node.ntype, Node.data] at hcond
        · -- a marker clone: childless
          subst hcl
          by_cases hct : ((cloneNode ins).ntype == NodeType.text) = true
          · have hceq : c = cloneNode ins := by rw [← hmap]; simp [hct]
            subst hceq
            exact hchildless _ rfl hcond
          · have hceq : c = insertNodeBetweenWideAndNarrowF f ins (cloneNode ins) := by
              rw [← hmap]; simp [hct]
            subst hceq
            refine ih ins (cloneNode ins) ?_
            refine hchildless _ rfl ?_
            cases hq : (cloneNode ins).ntype == NodeType.text
            · simp
            · exact absurd hq (by simpa using hct)
        · -- a fresh token text node: childless
          subst hs
          have hceq : c = textNode s := by rw [← hmap]; simp [textNode, Node.ntype]
          subst hceq
          exact hchildless _ rfl hcond

/-- C6: if no text node of the tree has an empty payload, then after each
of the three passes no text node has an empty payload — the transient
empty markers a pass inserts are removed before it returns. -/
theorem C6_no_empty_text (t ins : Node) (h : noEmptyTextB t = true) :
    noEmptyTextB (removeInterElementWhitespace t) = true ∧
    noEmptyTextB (processNewLines t) = true ∧
    noEmptyTextB (insertNodeBetweenWideAndNarrow t ins) = true :=
  ⟨(riew_noempty_main (nodeSize t)).1 t le_rfl h,
   pnlF_noempty (nodeSize t) t h,
   inbwanF_noempty (nodeSize t) ins t h⟩

/-- C6, witness for `C6_no_empty_text`: a small mixed tree. -/
theorem C6_witness :
    noEmptyTextB (removeInterElementWhitespace
        (elem "p" [textNode "a \n ", elem "b" [textNode "あ"]])) = true ∧
    noEmptyTextB (processNewLines
        (elem "p" [textNode "a \n ", elem "b" [textNode "あ"]])) = true ∧
    noEmptyTextB (insertNodeBetweenWideAndNarrow
        (elem "p" [textNode "a \n ", elem "b" [textNode "あ"]])
        (elem "span" [])) = true :=
  C6_no_empty_text (elem "p" [textNode "a \n ", elem "b" [textNode "あ"]])
    (elem "span" []) rfl

/-!  C9: the comment remover. -/

theorem commentFreeB_mk (t : NodeType) (d ns : String) (a : List HAttr)
    (ch : List Node) :
    commentFreeB (.mk t d ns a ch) = (!(t == .comment) && commentFreeListB ch) := by
  rw [commentFreeB]

theorem commentFreeListB_iff (l : List Node) :
    commentFreeListB l = true ↔ ∀ c ∈ l, commentFreeB c = true := by
  induction l with
  | nil => simp [commentFreeListB]
  | cons n l ih =>
    rw [commentFreeListB]
    simp [ih]

theorem commentFreeListB_append (l1 l2 : List Node) :
    commentFreeListB (l1 ++ l2) = (commentFreeListB l1 && commentFreeListB l2) := by
  induction l1 with
  | nil => simp [commentFreeListB]
  | cons n l ih => simp [commentFreeListB, ih, Bool.and_assoc]

theorem commentFreeB_withData (n : Node) (s : String) :
    commentFreeB (n.withData s) = commentFreeB n := by
  cases n with
  | mk t d ns a ch => rw [Node.withData, commentFreeB_mk, commentFreeB_mk]

/-- `commentFreeB` on the optional previous node. -/
def commentFreeOpt : Option Node → Bool
  | none => true
  | some x => commentFreeB x

theorem commentFreeListB_toList (p : Option Node) (h : commentFreeOpt p = true) :
    commentFreeListB p.toList = true := by
  cases p with
  | none => rfl
  | some x =>
    show commentFreeListB [x] = true
    rw [commentFreeListB, commentFreeListB]
    simp [commentFreeOpt] at h
    simp [h]

theorem noAdjTextPairB_cons2 (x y : Node) (l : List Node) :
    noAdjTextPairB (x :: y :: l) =
      (!(x.ntype == NodeType.text && y.ntype == NodeType.text) &&
        noAdjTextPairB (y :: l)) := by
  rw [noAdjTextPairB]

theorem noAdjTextPairB_tail {x : Node} {l : List Node}
    (h : noAdjTextPairB (x :: l) = true) : noAdjTextPairB l = true := by
  cases l with
  | nil => rfl
  | cons y l =>
    rw [noAdjTextPairB_cons2, Bool.and_eq_true] at h
    exact h.2

theorem noAdjTextPairB_congr_head (x y : Node) (l : List Node)
    (h : x.ntype = y.ntype) :
    noAdjTextPairB (x :: l) = noAdjTextPairB (y :: l) := by
  cases l with
  | nil => rfl
  | cons z l => rw [noAdjTextPairB_cons2, noAdjTextPairB_cons2, h]

theorem noAdjTextsB_mk (t : NodeType) (d ns : String) (a : List HAttr)
    (ch : List Node) :
    noAdjTextsB (.mk t d ns a ch) = (noAdjTextPairB ch && noAdjTextsListB ch) := by
  rw [noAdjTextsB]

theorem noAdjTextsListB_iff (l : List Node) :
    noAdjTextsListB l = true ↔ ∀ c ∈ l, noAdjTextsB c = true := by
  induction l with
  | nil => simp [noAdjTextsListB]
  | cons n l ih =>
    rw [noAdjTextsListB]
    simp [ih]

theorem noAdjTextsListB_append (l1 l2 : List Node) :
    noAdjTextsListB (l1 ++ l2) = (noAdjTextsListB l1 && noAdjTextsListB l2) := by
  induction l1 with
  | nil => simp [noAdjTextsListB]
  | cons n l ih => simp [noAdjTextsListB, ih, Bool.and_assoc]

theorem noAdjTextsB_withData (n : Node) (s : String) :
    noAdjTextsB (n.withData s) = noAdjTextsB n := by
  cases n with
  | mk t d ns a ch => rw [Node.withData, noAdjTextsB_mk, noAdjTextsB_mk]

/-- `noAdjTextsB` on the optional previous node. -/
def noAdjTextsOpt : Option Node → Bool
  | none => true
  | some x => noAdjTextsB x

theorem noAdjTextsListB_toList (p : Option Node) (h : noAdjTextsOpt p = true) :
    noAdjTextsListB p.toList = true := by
  cases p with
  | none => rfl
  | some x =>
    show noAdjTextsListB [x] = true
    rw [noAdjTextsListB, noAdjTextsListB]
    simp [noAdjTextsOpt] at h
    simp [h]

/-- `removeComments` preserves the node's type and data. -/
theorem rc_shape (n : Node) :
    (removeComments n).ntype = n.ntype ∧ (removeComments n).data = n.data := by
  cases n with
  | mk t d ns a ch =>
    rw [removeComments]
    exact ⟨rfl, rfl⟩

theorem rcChildren_nil (p : Option Node) :
    removeCommentsChildren p [] = p.toList := by
  rw [removeCommentsChildren]

theorem rcChildren_comment_merge (prev n m : Node) (rest2 : List Node)
    (hn : (n.ntype == NodeType.comment) = true)
    (hp : (prev.ntype == NodeType.text) = true)
    (hm : (m.ntype == NodeType.text) = true) :
    removeCommentsChildren (some prev) (n :: m :: rest2) =
      removeCommentsChildren (some (prev.withData (prev.data ++ m.data))) rest2 := by
  rw [removeCommentsChildren]
  simp [hn, hp, hm]

theorem rcChildren_comment_nomerge (prev n m : Node) (rest2 : List Node)
    (hn : (n.ntype == NodeType.comment) = true)
    (hpm : (prev.ntype == NodeType.text && m.ntype == NodeType.text) = false) :
    removeCommentsChildren (some prev) (n :: m :: rest2) =
      removeCommentsChildren (some prev) (m :: rest2) := by
  rw [removeCommentsChildren]
  simp [hn, hpm]

theorem rcChildren_comment_none (n m : Node) (rest2 : List Node)
    (hn : (n.ntype == NodeType.comment) = true) :
    removeCommentsChildren none (n :: m :: rest2) =
      removeCommentsChildren none (m :: rest2) := by
  rw [removeCommentsChildren]
  simp [hn]

theorem rcChildren_comment_last (p : Option Node) (n : Node)
    (hn : (n.ntype == NodeType.comment) = true) :
    removeCommentsChildren p [n] = p.toList := by
  rw [removeCommentsChildren.eq_def]
  cases p <;> simp [hn]

theorem rcChildren_noncomment (p : Option Node) (n : Node) (rest : List Node)
    (hn : (n.ntype == NodeType.comment) = false) :
    removeCommentsChildren p (n :: rest) =
      p.toList ++ removeCommentsChildren (some (removeComments n)) rest := by
  rw [removeCommentsChildren.eq_def]
  simp [hn]

/-- The output of the child loop, seeded with a pending node, is non-empty
and starts with a node of the same type as the seed (the seed itself, or
the seed with merged payload). -/
theorem rcChildren_head : ∀ (k : Nat) (l : List Node), l.length ≤ k →
    ∀ y : Node, ∃ z zs,
      removeCommentsChildren (some y) l = z :: zs ∧ z.ntype = y.ntype := by
  intro k
  induction k with
  | zero =>
    intro l hl y
    have : l = [] := List.length_eq_zero.1 (Nat.le_zero.1 hl)
    subst this
    exact ⟨y, [], rcChildren_nil _, rfl⟩
  | succ k ih =>
    intro l hl y
    cases l with
    | nil => exact ⟨y, [], rcChildren_nil _, rfl⟩
    | cons n rest =>
      by_cases hn : (n.ntype == NodeType.comment) = true
      · cases rest with
        | nil => exact ⟨y, [], rcChildren_comment_last _ n hn, rfl⟩
        | cons m rest2 =>
          by_cases hpm : (y.ntype == NodeType.text && m.ntype == NodeType.text) = true
          · rw [Bool.and_eq_true] at hpm
            rw [rcChildren_comment_merge y n m rest2 hn hpm.1 hpm.2]
            have hlen : rest2.length ≤ k := by
              simp at hl
              omega
            obtain ⟨z, zs, hz, hzt⟩ := ih rest2 hlen (y.withData (y.data ++ m.data))
            exact ⟨z, zs, hz, by rw [hzt, Node.withData_ntype]⟩
          · rw [rcChildren_comment_nomerge y n m rest2 hn (by simpa using hpm)]
            have hlen : (m :: rest2).length ≤ k := by
              simp at hl ⊢
              omega
            exact ih (m :: rest2) hlen y
      · rw [rcChildren_noncomment (some y) n rest (by simpa using hn)]
        obtain ⟨z, zs, hz, hzt⟩ :
            ∃ z zs, removeCommentsChildren (some (removeComments n)) rest = z :: zs ∧
              z.ntype = (removeComments n).ntype := by
          have hlen : rest.length ≤ k := by simp at hl; omega
          exact ih rest hlen (removeComments n)
        exact ⟨y, removeCommentsChildren (some (removeComments n)) rest, rfl, rfl⟩

theorem noAdjTextsListB_cons_parts {n : Node} {l : List Node}
    (h : noAdjTextsListB (n :: l) = true) :
    noAdjTextsB n = true ∧ noAdjTextsListB l = true := by
  rw [noAdjTextsListB, Bool.and_eq_true] at h
  exact h

/-- Main induction for comment removal: no comment survives. -/
theorem rc_commentfree_main : ∀ N : Nat,
    (∀ n, nodeSize n ≤ N → (n.ntype == NodeType.comment) = false →
      commentFreeB (removeComments n) = true) ∧
    (∀ (l : List Node) (p : Option Node), forestSize l ≤ N →
      commentFreeOpt p = true →
      commentFreeListB (removeCommentsChildren p l) = true) := by
  intro N
  induction N using Nat.strong_induction_on with
  | _ N ih =>
  have hnode : ∀ n, nodeSize n ≤ N → (n.ntype == NodeType.comment) = false →
      commentFreeB (removeComments n) = true := by
    intro n hn hcom
    cases n with
    | mk t d ns a ch =>
      rw [removeComments, commentFreeB_mk, Bool.and_eq_true]
      refine ⟨by simpa [Node.ntype] using hcom, ?_⟩
      have hch : forestSize ch < N := by simp [nodeSize] at hn; omega
      exact (ih _ hch).2 ch none le_rfl rfl
  refine ⟨hnode, ?_⟩
  intro l p hl hp
  cases l with
  | nil =>
    rw [rcChildren_nil]
    exact commentFreeListB_toList p hp
  | cons n rest =>
    by_cases hn : (n.ntype == NodeType.comment) = true
    · cases rest with
      | nil =>
        rw [rcChildren_comment_last p n hn]
        exact commentFreeListB_toList p hp
      | cons m rest2 =>
        have hmrest : forestSize (m :: rest2) < N := by
          rw [forestSize_cons] at hl
          have := nodeSize_pos n
          omega
        cases p with
        | none =>
          rw [rcChildren_comment_none n m rest2 hn]
          exact (ih _ hmrest).2 (m :: rest2) none le_rfl rfl
        | some prev =>
          by_cases hpm : (prev.ntype == NodeType.text && m.ntype == NodeType.text) = true
          · rw [Bool.and_eq_true] at hpm
            rw [rcChildren_comment_merge prev n m rest2 hn hpm.1 hpm.2]
            have hrest2 : forestSize rest2 < N := by
              rw [forestSize_cons, forestSize_cons] at hl
              have := nodeSize_pos n
              have := nodeSize_pos m
              omega
            refine (ih _ hrest2).2 rest2 _ le_rfl ?_
            show commentFreeB (prev.withData _) = true
            rw [commentFreeB_withData]
            simpa [commentFreeOpt] using hp
          · rw [rcChildren_comment_nomerge prev n m rest2 hn (by simpa using hpm)]
            exact (ih _ hmrest).2 (m :: rest2) (some prev) le_rfl hp
    · rw [rcChildren_noncomment p n rest (by simpa using hn)]
      rw [commentFreeListB_append, Bool.and_eq_true]
      refine ⟨commentFreeListB_toList p hp, ?_⟩
      have hrest : forestSize rest < N := by
        rw [forestSize_cons] at hl
        have := nodeSize_pos n
        omega
      have hnN : nodeSize n ≤ N := by rw [forestSize_cons] at hl; omega
      refine (ih _ hrest).2 rest _ le_rfl ?_
      show commentFreeB (removeComments n) = true
      exact hnode n hnN (by simpa using hn)

/-- Main induction for comment removal: if no two adjacent siblings are
both text anywhere in the tree, the same holds after the pass — every
pair made adjacent by a removal has been merged. -/
theorem rc_noadj_main : ∀ N : Nat,
    (∀ n, nodeSize n ≤ N → noAdjTextsB n = true →
      noAdjTextsB (removeComments n) = true) ∧
    (∀ (l : List Node) (p : Option Node), forestSize l ≤ N →
      noAdjTextPairB (p.toList ++ l) = true →
      noAdjTextsListB l = true →
      noAdjTextsOpt p = true →
      noAdjTextPairB (removeCommentsChildren p l) = true ∧
      noAdjTextsListB (removeCommentsChildren p l) = true) := by
  intro N
  induction N using Nat.strong_induction_on with
  | _ N ih =>
  have hnode : ∀ n, nodeSize n ≤ N → noAdjTextsB n = true →
      noAdjTextsB (removeComments n) = true := by
    intro n hn h
    cases n with
    | mk t d ns a ch =>
      rw [removeComments, noAdjTextsB_mk, Bool.and_eq_true]
      rw [noAdjTextsB_mk, Bool.and_eq_true] at h
      have hch : forestSize ch < N := by simp [nodeSize] at hn; omega
      have := (ih _ hch).2 ch none le_rfl (by simpa using h.1) h.2 rfl
      exact this
  refine ⟨hnode, ?_⟩
  intro l p hl h1 h2 h3
  cases l with
  | nil =>
    rw [rcChildren_nil]
    constructor
    · cases p with
      | none => rfl
      | some x => rfl
    · exact noAdjTextsListB_toList p h3
  | cons n rest =>
    by_cases hn : (n.ntype == NodeType.comment) = true
    · cases rest with
      | nil =>
        rw [rcChildren_comment_last p n hn]
        constructor
        · cases p with
          | none => rfl
          | some x => rfl
        · exact noAdjTextsListB_toList p h3
      | cons m rest2 =>
        have hmrest : forestSize (m :: rest2) < N := by
          rw [forestSize_cons] at hl
          have := nodeSize_pos n
          omega
        have h1suffix : noAdjTextPairB (n :: m :: rest2) = true := by
          cases p with
          | none => exact h1
          | some x => exact noAdjTextPairB_tail h1
        cases p with
        | none =>
          rw [rcChildren_comment_none n m rest2 hn]
          exact (ih _ hmrest).2 (m :: rest2) none le_rfl
            (noAdjTextPairB_tail h1suffix)
            (noAdjTextsListB_cons_parts h2).2 rfl
        | some prev =>
          by_cases hpm : (prev.ntype == NodeType.text && m.ntype == NodeType.text) = true
          · rw [Bool.and_eq_true] at hpm
            rw [rcChildren_comment_merge prev n m rest2 hn hpm.1 hpm.2]
            have hrest2 : forestSize rest2 < N := by
              rw [forestSize_cons, forestSize_cons] at hl
              have := nodeSize_pos n
              have := nodeSize_pos m
              omega
            refine (ih _ hrest2).2 rest2 _ le_rfl ?_ ?_ ?_
            · -- merged :: rest2 has no adjacent text pair
              show noAdjTextPairB (prev.withData (prev.data ++ m.data) :: rest2) = true
              have hm2 : noAdjTextPairB (m :: rest2) = true :=
                noAdjTextPairB_tail h1suffix
              have hty : (prev.withData (prev.data ++ m.data)).ntype = m.ntype := by
                rw [Node.withData_ntype]
                have hpt : prev.ntype = NodeType.text := by simpa using hpm.1
                have hmt : m.ntype = NodeType.text := by simpa using hpm.2
                rw [hpt, hmt]
              rw [noAdjTextPairB_congr_head _ m rest2 hty]
              exact hm2
            · exact (noAdjTextsListB_cons_parts (noAdjTextsListB_cons_parts h2).2).2
            · show noAdjTextsB (prev.withData _) = true
              rw [noAdjTextsB_withData]
              simpa [noAdjTextsOpt] using h3
          · rw [rcChildren_comment_nomerge prev n m rest2 hn (by simpa using hpm)]
            refine (ih _ hmrest).2 (m :: rest2) (some prev) le_rfl ?_
              (noAdjTextsListB_cons_parts h2).2 h3
            show noAdjTextPairB (prev :: m :: rest2) = true
            rw [noAdjTextPairB_cons2, Bool.and_eq_true]
            have hpm' : (prev.ntype == NodeType.text && m.ntype == NodeType.text) = false := by
              simpa using hpm
            exact ⟨by rw [hpm']; rfl, noAdjTextPairB_tail h1suffix⟩
    · rw [rcChildren_noncomment p n rest (by simpa using hn)]
      have hrest : forestSize rest < N := by
        rw [forestSize_cons] at hl
        have := nodeSize_pos n
        omega
      have hnN : nodeSize n ≤ N := by rw [forestSize_cons] at hl; omega
      have h1suffix : noAdjTextPairB (n :: rest) = true := by
        cases p with
        | none => exact h1
        | some x => exact noAdjTextPairB_tail h1
      have hrcn : noAdjTextsB (removeComments n) = true :=
        hnode n hnN (noAdjTextsListB_cons_parts h2).1
      have hcall := (ih _ hrest).2 rest (some (removeComments n)) le_rfl
        (by
          show noAdjTextPairB (removeComments n :: rest) = true
          rw [noAdjTextPairB_congr_head _ n rest (rc_shape n).1]
          exact h1suffix)
        (noAdjTextsListB_cons_parts h2).2 hrcn
      constructor
      · cases p with
        | none => exact hcall.1
        | some x =>
          obtain ⟨z, zs, hz, hzt⟩ :=
            rcChildren_head rest.length rest le_rfl (removeComments n)
          show noAdjTextPairB (x :: removeCommentsChildren (some (removeComments n)) rest) = true
          rw [hz, noAdjTextPairB_cons2, Bool.and_eq_true]
          constructor
          · have h1pair : (!(x.ntype == NodeType.text && n.ntype == NodeType.text)) = true := by
              have := h1
              rw [show (some x).toList ++ n :: rest = x :: n :: rest from rfl] at this
              rw [noAdjTextPairB_cons2, Bool.and_eq_true] at this
              exact this.1
            rw [hzt, (rc_shape n).1]
            exact h1pair
          · rw [← hz]
            exact hcall.1
      · rw [noAdjTextsListB_append, Bool.and_eq_true]
        exact ⟨noAdjTextsListB_toList p h3, hcall.2⟩

/-- C9: after `removeComments`, (i) no comment node remains anywhere below
a non-comment root; (ii) if no two adjacent sibling text nodes existed
anywhere in the tree (as the HTML parser guarantees), none exist
afterwards either — every pair of text siblings made adjacent by a removal
has been merged; and (iii) the merge concatenates the first node's payload
with the second node's, in order. -/
theorem C9_remove_comments :
    (∀ t : Node, (t.ntype == NodeType.comment) = false →
      commentFreeB (removeComments t) = true) ∧
    (∀ t : Node, noAdjTextsB t = true →
      noAdjTextsB (removeComments t) = true) ∧
    (∀ (p : Option Node) (A B cs : String) (rest : List Node),
      removeCommentsChildren p
          (textNode A :: commentNode cs :: textNode B :: rest) =
        p.toList ++ removeCommentsChildren (some (textNode (A ++ B))) rest) := by
  refine ⟨?_, ?_, ?_⟩
  · intro t h
    exact (rc_commentfree_main (nodeSize t)).1 t le_rfl h
  · intro t h
    exact (rc_noadj_main (nodeSize t)).1 t le_rfl h
  · intro p A B cs rest
    rw [rcChildren_noncomment p (textNode A) _ rfl]
    have hA : removeComments (textNode A) = textNode A := by
      rw [textNode, removeComments, rcChildren_nil]
      rfl
    rw [hA]
    rw [rcChildren_comment_merge (textNode A) (commentNode cs) (textNode B) rest
        rfl rfl rfl]
    rfl

/-- C9, witness for `C9_remove_comments`: a paragraph with a comment
between two texts. -/
theorem C9_witness :
    commentFreeB (removeComments
        (elem "p" [textNode "a", commentNode "x", textNode "b"])) = true ∧
    noAdjTextsB (removeComments
        (elem "p" [textNode "a", commentNode "x", textNode "b"])) = true :=
  ⟨C9_remove_comments.1 (elem "p" [textNode "a", commentNode "x", textNode "b"]) rfl,
   C9_remove_comments.2.1 (elem "p" [textNode "a", commentNode "x", textNode "b"]) rfl⟩

/-!  C10: the spacer never changes the character content. -/

theorem str_data_append (a b : String) : (a ++ b).data = a.data ++ b.data := by
  cases a; cases b; rfl

theorem textContent_mk (t : NodeType) (d ns : String) (a : List HAttr)
    (ch : List Node) :
    textContent (.mk t d ns a ch) =
      (if t == .text then d.data else []) ++ textContentList ch := by
  rw [textContent]

theorem textContentList_nil : textContentList [] = [] := by
  rw [textContentList]

theorem textContentList_cons (n : Node) (l : List Node) :
    textContentList (n :: l) = textContent n ++ textContentList l := by
  rw [textContentList]

theorem textContentList_append (l1 l2 : List Node) :
    textContentList (l1 ++ l2) = textContentList l1 ++ textContentList l2 := by
  induction l1 with
  | nil => simp [textContentList_nil]
  | cons n l ih => simp [textContentList_cons, ih]

theorem textContent_text_childless (n : Node) (ht : n.ntype = .text)
    (hc : n.children = []) : textContent n = n.data.data := by
  cases n with
  | mk t d ns a ch =>
    simp only [Node.ntype] at ht
    simp only [Node.children] at hc
    subst ht; subst hc
    rw [textContent_mk]
    simp [textContentList_nil, Node.data]

theorem textContent_textNode (s : String) : textContent (textNode s) = s.data := by
  rw [textNode, textContent_mk]
  simp [textContentList_nil]

theorem textContent_clone (ins : Node) (h : ins.ntype = .element) :
    textContent (cloneNode ins) = [] := by
  rw [cloneNode, textContent_mk, h]
  simp [textContentList_nil]

theorem textsChildlessB_mk (t : NodeType) (d ns : String) (a : List HAttr)
    (ch : List Node) :
    textsChildlessB (.mk t d ns a ch) =
      ((!(t == .text) || ch.isEmpty) && textsChildlessListB ch) := by
  rw [textsChildlessB]

theorem textsChildlessListB_iff (l : List Node) :
    textsChildlessListB l = true ↔ ∀ c ∈ l, textsChildlessB c = true := by
  induction l with
  | nil => simp [textsChildlessListB]
  | cons n l ih =>
    rw [textsChildlessListB]
    simp [ih]

theorem textsChildless_children (n : Node) (h : textsChildlessB n = true)
    (ht : n.ntype = .text) : n.children = [] := by
  cases n with
  | mk t d ns a ch =>
    simp only [Node.ntype] at ht
    subst ht
    rw [textsChildlessB_mk, Bool.and_eq_true] at h
    have := h.1
    simp at this
    simp [Node.children, this]

theorem textsChildless_sub (n : Node) (h : textsChildlessB n = true) :
    textsChildlessListB n.children = true := by
  cases n with
  | mk t d ns a ch =>
    rw [textsChildlessB_mk, Bool.and_eq_true] at h
    exact h.2

theorem textsChildless_clone (ins : Node) : textsChildlessB (cloneNode ins) = true := by
  rw [cloneNode, textsChildlessB_mk]
  simp [textsChildlessListB]

theorem inbwanF_ntype (f : Nat) (ins c : Node) :
    (insertNodeBetweenWideAndNarrowF f ins c).ntype = c.ntype := by
  cases f with
  | zero => rfl
  | succ f =>
    by_cases hop : isOpaqueNode c = true
    · rw [inbwanF_guard _ _ _ hop]
    · have hop' : isOpaqueNode c = false := by simpa using hop
      cases c with
      | mk t d ns a ch =>
        rw [insertNodeBetweenWideAndNarrowF]
        simp only [hop', Bool.false_eq_true, if_false]
        rfl

theorem tc_insertDummies : ∀ l : List Node,
    textContentList (insertDummies l) = textContentList l := by
  intro l
  induction l with
  | nil => rfl
  | cons a tail ih =>
    cases tail with
    | nil => rfl
    | cons b rest =>
      rw [insertDummies]
      have h0 : textContent (textNode "") = [] := by
        rw [textContent_textNode]
      split
      · simp [textContentList_cons, h0, ih]
      · simp [textContentList_cons, ih]

theorem tc_interleave (ins : Node) (hins : ins.ntype = .element) :
    ∀ ts : List String,
      textContentList (interleaveTokens ins ts) = (concatStrings ts).data := by
  intro ts
  induction ts with
  | nil => rfl
  | cons t ts ih =>
    cases ts with
    | nil =>
      rw [interleaveTokens, textContentList_cons, textContentList_nil,
        textContent_textNode, concatStrings, concatStrings, append_empty_str]
      simp
    | cons t2 ts2 =>
      rw [interleaveTokens, textContentList_cons, textContentList_cons,
        textContent_textNode, textContent_clone ins hins, ih]
      simp [concatStrings, str_data_append]

theorem tc_replaceTextNode (ins : Node) (hins : ins.ntype = .element)
    (prevR nextR : Int) (d : String) :
    textContentList (replaceTextNode ins prevR nextR d) = d.data := by
  cases ht : tokenize d with
  | nil => exact absurd ht (tokenize_ne_nil d)
  | cons t0 ts =>
    rw [replaceTextNode, ht]
    rw [textContentList_append, textContentList_append]
    have h1 : ∀ b : Bool, textContentList
        (if b = true then [cloneNode ins] else []) = [] := by
      intro b
      cases b
      · rfl
      · rw [if_pos rfl, textContentList_cons, textContentList_nil,
          textContent_clone ins hins]
        rfl
    rw [h1, h1, tc_interleave ins hins]
    have hc := concatStrings_tokenize d
    rw [ht] at hc
    rw [hc]
    simp

theorem inbwanTexts_nil (ins : Node) (done : List Node) :
    inbwanTexts ins done [] = done := by
  rw [inbwanTexts]

theorem inbwanTexts_text (ins : Node) (done : List Node) (n : Node)
    (rest : List Node) (h : (n.ntype == NodeType.text) = true) :
    inbwanTexts ins done (n :: rest) =
      inbwanTexts ins
        (done ++ replaceTextNode ins
          (lastRuneBefore (done ++ n :: rest) done.length)
          (firstRuneAfter (done ++ n :: rest) done.length) n.data) rest := by
  rw [inbwanTexts]
  simp [h]

theorem inbwanTexts_nontext (ins : Node) (done : List Node) (n : Node)
    (rest : List Node) (h : (n.ntype == NodeType.text) = false) :
    inbwanTexts ins done (n :: rest) = inbwanTexts ins (done ++ [n]) rest := by
  rw [inbwanTexts]
  simp [h]

theorem tc_inbwanTexts (ins : Node) (hins : ins.ntype = .element) :
    ∀ (rest done : List Node),
      (∀ c ∈ rest, c.ntype = .text → c.children = []) →
      textContentList (inbwanTexts ins done rest) =
        textContentList done ++ textContentList rest := by
  intro rest
  induction rest with
  | nil =>
    intro done h
    rw [inbwanTexts_nil, textContentList_nil]
    simp
  | cons n rest ih =>
    intro done h
    by_cases hn : (n.ntype == NodeType.text) = true
    · rw [inbwanTexts_text ins done n rest hn]
      rw [ih _ (fun c hc hct => h c (List.mem_cons_of_mem n hc) hct)]
      rw [textContentList_append, tc_replaceTextNode ins hins,
        textContentList_cons]
      rw [textContent_text_childless n (by simpa using hn)
        (h n (List.mem_cons_self n rest) (by simpa using hn))]
      simp
    · rw [inbwanTexts_nontext ins done n rest (by simpa using hn)]
      rw [ih _ (fun c hc hct => h c (List.mem_cons_of_mem n hc) hct)]
      rw [textContentList_append, textContentList_cons, textContentList_cons,
        textContentList_nil]
      simp

theorem inbwanTexts_text_childless (ins : Node) :
    ∀ (rest done : List Node),
      (∀ c ∈ done, c.ntype = .text → c.children = []) →
      ∀ c ∈ inbwanTexts ins done rest, c.ntype = .text → c.children = [] := by
  intro rest
  induction rest with
  | nil =>
    intro done h c hc
    rw [inbwanTexts_nil] at hc
    exact h c hc
  | cons n rest ih =>
    intro done h c hc
    by_cases hn : (n.ntype == NodeType.text) = true
    · rw [inbwanTexts_text ins done n rest hn] at hc
      refine ih _ ?_ c hc
      intro x hx hxt
      rcases List.mem_append.1 hx with h1 | h2
      · exact h x h1 hxt
      · rcases mem_replaceTextNode ins _ _ _ x h2 with h3 | ⟨s, h4⟩
        · rw [h3]; rfl
        · rw [h4]; rfl
    · rw [inbwanTexts_nontext ins done n rest (by simpa using hn)] at hc
      refine ih _ ?_ c hc
      intro x hx hxt
      rcases List.mem_append.1 hx with h1 | h2
      · exact h x h1 hxt
      · have : x = n := List.mem_singleton.1 h2
        subst this
        exact absurd hxt (by simpa using hn)

theorem tc_removeEmptyTexts : ∀ l : List Node,
    (∀ c ∈ l, c.ntype = .text → c.children = []) →
    textContentList (removeEmptyTexts l) = textContentList l := by
  intro l
  induction l with
  | nil => intro h; rfl
  | cons n rest ih =>
    intro h
    rw [removeEmptyTexts, List.filter_cons]
    split
    · rw [textContentList_cons, textContentList_cons]
      rw [show List.filter (fun c => !(c.ntype == NodeType.text && c.data == "")) rest
          = removeEmptyTexts rest from rfl]
      rw [ih (fun c hc hct => h c (List.mem_cons_of_mem n hc) hct)]
    · rename_i hcond
      have hparts : n.ntype = .text ∧ n.data = "" := by
        have : (n.ntype == NodeType.text && n.data == "") = true := by
          cases hq : (n.ntype == NodeType.text && n.data == "")
          · rw [hq] at hcond; simp at hcond
          · rfl
        rw [Bool.and_eq_true] at this
        exact ⟨by simpa using this.1, by simpa using this.2⟩
      rw [show List.filter (fun c => !(c.ntype == NodeType.text && c.data == "")) rest
          = removeEmptyTexts rest from rfl]
      rw [ih (fun c hc hct => h c (List.mem_cons_of_mem n hc) hct)]
      rw [textContentList_cons]
      rw [textContent_text_childless n hparts.1 (h n (List.mem_cons_self n rest) hparts.1)]
      rw [hparts.2]
      rfl

theorem tc_map (g : Node → Node) : ∀ l : List Node,
    (∀ c ∈ l, textContent (g c) = textContent c) →
    textContentList (List.map g l) = textContentList l := by
  intro l
  induction l with
  | nil => intro h; rfl
  | cons n rest ih =>
    intro h
    rw [List.map_cons, textContentList_cons, textContentList_cons,
      h n (List.mem_cons_self n rest),
      ih (fun c hc => h c (List.mem_cons_of_mem n hc))]

/-- The wide/narrow spacer preserves the document's character content, for
every fuel, every element marker, and every tree whose text nodes are
childless (as all parser-produced trees are). -/
theorem inbwanF_tc : ∀ (f : Nat) (ins t : Node), ins.ntype = .element →
    textsChildlessB t = true →
    textContent (insertNodeBetweenWideAndNarrowF f ins t) = textContent t := by
  intro f
  induction f with
  | zero => intro ins t h1 h2; rfl
  | succ f ih =>
    intro ins t hins hch
    by_cases hop : isOpaqueNode t = true
    · rw [inbwanF_guard _ _ _ hop]
    · have hop' : isOpaqueNode t = false := by simpa using hop
      cases t with
      | mk ty d ns a ch =>
        rw [insertNodeBetweenWideAndNarrowF]
        simp only [hop', Bool.false_eq_true, if_false]
        rw [textContent_mk, textContent_mk]
        congr 1
        have hchlist : textsChildlessListB ch = true :=
          textsChildless_sub _ hch
        have hch1text : ∀ c ∈ insertDummies ch, c.ntype = .text → c.children = [] := by
          intro c hc hct
          rcases mem_insertDummies ch c hc with h1 | h2
          · exact textsChildless_children c ((textsChildlessListB_iff ch).1 hchlist c h1) hct
          · rw [h2]; rfl
        have hch2 := tc_inbwanTexts ins hins (insertDummies ch) [] hch1text
        have hch2text : ∀ c ∈ inbwanTexts ins [] (insertDummies ch),
            c.ntype = .text → c.children = [] :=
          inbwanTexts_text_childless ins (insertDummies ch) [] (by simp)
        have hmap : textContentList
            (List.map (fun c => if (c.ntype == NodeType.text) = true then c
                else insertNodeBetweenWideAndNarrowF f ins c)
              (inbwanTexts ins [] (insertDummies ch))) =
            textContentList (inbwanTexts ins [] (insertDummies ch)) := by
          refine tc_map _ _ ?_
          intro c' hc'
          by_cases hct : (c'.ntype == NodeType.text) = true
          · simp [hct]
          · simp only [hct, Bool.false_eq_true, if_false]
            refine ih ins c' hins ?_
            rcases mem_inbwanTexts ins _ _ c' hc' with h1 | h2 | h3 | ⟨s, h4⟩
            · simp at h1
            · rcases mem_insertDummies ch c' h2 with h5 | h6
              · exact (textsChildlessListB_iff ch).1 hchlist c' h5
              · exact absurd (show c'.ntype = NodeType.text by rw [h6]; rfl)
                  (by simpa using hct)
            · rw [h3]; exact textsChildless_clone ins
            · exact absurd (show c'.ntype = NodeType.text by rw [h4]; rfl)
                (by simpa using hct)
        have hch3text : ∀ c ∈ List.map (fun c =>
              if (c.ntype == NodeType.text) = true then c
              else insertNodeBetweenWideAndNarrowF f ins c)
            (inbwanTexts ins [] (insertDummies ch)),
            c.ntype = .text → c.children = [] := by
          intro c hc hct
          obtain ⟨c', hc', hmapc⟩ := List.mem_map.1 hc
          by_cases hctt : (c'.ntype == NodeType.text) = true
          · rw [← hmapc]
            simp only [hctt, if_true]
            exact hch2text c' hc' (by simpa using hctt)
          · exfalso
            rw [← hmapc] at hct
            simp only [hctt, Bool.false_eq_true, if_false] at hct
            rw [inbwanF_ntype] at hct
            exact (by simpa using hctt : ¬c'.ntype = NodeType.text) hct
        rw [tc_removeEmptyTexts _ hch3text, hmap, hch2, tc_insertDummies]
        rfl

/-- C10: the wide/narrow boundary spacer never changes the document's
character content: the tokens cut from a text node concatenate back, in
order, to exactly the original payload, and on any tree whose text nodes
are childless (every parser-produced tree) the pass with an element marker
preserves the concatenation of all text payloads — it only adds marker
elements and re-creates text nodes carrying the same characters. -/
theorem C10_content_preserved :
    (∀ s : String, concatStrings (tokenize s) = s) ∧
    (∀ t ins : Node, ins.ntype = .element → textsChildlessB t = true →
      textContent (insertNodeBetweenWideAndNarrow t ins) = textContent t) := by
  refine ⟨concatStrings_tokenize, ?_⟩
  intro t ins hins hch
  exact inbwanF_tc (nodeSize t) ins t hins hch

/-- C10, witness for `C10_content_preserved`: a mixed-script paragraph
with the repository's marker. -/
theorem C10_witness :
    textContent (insertNodeBetweenWideAndNarrow
        (elem "p" [textNode "aあb"]) (elem "span" [])) =
      textContent (elem "p" [textNode "aあb"]) :=
  C10_content_preserved.2 (elem "p" [textNode "aあb"]) (elem "span" []) rfl rfl

end HH
